import Mathlib

/-!
Verification of the rule-based certainty-factor diagnostic engine
(`app/core/inference_engine.py`, `app/core/working_memory.py`,
`app/core/explanation.py`).

Certainty factors are embedded as rationals (`ℚ`); Python floats are
modelled exactly, so arithmetic identities hold without rounding error.
Python dicts are embedded as insertion-ordered association lists
(`List (String × ℚ)` etc.), matching the deterministic Python
insertion-order iteration.  Python sets are embedded as `Finset String`;
their Python iteration order is implementation-defined and no claim
depends on it.
-/

namespace FishDiag

/-- Python `min(a, b)` on CFs, written so the kernel can evaluate it. -/
def qmin (a b : ℚ) : ℚ := if a ≤ b then a else b

/-- Python `max(a, b)` on CFs, written so the kernel can evaluate it. -/
def qmax (a b : ℚ) : ℚ := if a ≤ b then b else a

/-- Clamp a certainty factor into `[0,1]` (`min(1.0, max(0.0, x))`). -/
def clamp01 (x : ℚ) : ℚ := qmin 1 (qmax 0 x)

/-- Association-list lookup (Python `d.get(k)` / `k in d`). -/
def getFact : List (String × ℚ) → String → Option ℚ
  | [], _ => none
  | (g, d) :: rest, f => if g = f then some d else getFact rest f

/-- Association-list update preserving insertion order (Python `d[k] = v`). -/
def setFact : List (String × ℚ) → String → ℚ → List (String × ℚ)
  | [], f, c => [(f, c)]
  | (g, d) :: rest, f, c =>
      if g = f then (g, c) :: rest else (g, d) :: setFact rest f c

/-- A rule of the knowledge base: `{IF: [...], THEN: str, CF: float, ...}`
(`rule.get("CF", 1.0)` is modelled by the default value `1`). -/
structure Rule where
  IF : List String
  THEN : String
  CF : ℚ := 1
  ask_why : Option String := none
  source : Option String := none
  recommendation : Option String := none
deriving DecidableEq, Repr

/-- A symptom record; `weight` defaults to `1.0` as in
`s_map.get("weight", 1.0)`. -/
structure Symptom where
  nama : String := ""
  weight : ℚ := 1
deriving DecidableEq, Repr

/-- A disease record (presentation fields not used by any claim are
omitted). -/
structure Disease where
  nama : String := ""
deriving DecidableEq, Repr

/-- The knowledge base handle consumed by `diagnose`: three
insertion-ordered read-only collections. -/
structure KB where
  rules : List (String × Rule)
  symptoms : List (String × Symptom)
  diseases : List (String × Disease)
deriving DecidableEq, Repr

/-- Generic association-list lookup for KB collections. -/
def alget {α : Type} : List (String × α) → String → Option α
  | [], _ => none
  | (g, d) :: rest, f => if g = f then some d else alget rest f

/-- Modelled from the spec: round a CF to three decimals as the Python call
`round(x, 3)` does in `ReasoningStep.to_row`.  (Python uses float
round-half-to-even; this embedding rounds half up.  The claims only
compare rows for equality, which is unaffected by the choice of
deterministic rounding.) -/
def round3 (q : ℚ) : ℚ := ((q * 1000 + 1/2).floor : ℚ) / 1000

/-- One reasoning step recorded by the explanation facility
(`explanation.py`, `ReasoningStep`). -/
structure ReasoningStep where
  step : ℕ
  rule : String
  matched_if : List String
  derived : String
  cf_before : ℚ
  delta_cf : ℚ
  cf_after : ℚ
  facts_before : List String
  facts_after : List String
  why : Option String := none
  source : Option String := none
deriving DecidableEq, Repr

/-- The UI row produced by `ReasoningStep.to_row`. -/
structure Row where
  step : ℕ
  rule : String
  matched_if : String
  derived : String
  cf_before : ℚ
  delta_cf : ℚ
  cf_after : ℚ
  facts_before : String
  facts_after : String
  why : Option String := none
  source : Option String := none
deriving DecidableEq, Repr

/-- `ReasoningStep.to_row`: joins the id lists with `", "` and rounds the
CFs to three decimals. -/
def ReasoningStep.to_row (s : ReasoningStep) : Row :=
  { step := s.step
    rule := s.rule
    matched_if := String.intercalate ", " s.matched_if
    derived := s.derived
    cf_before := round3 s.cf_before
    delta_cf := round3 s.delta_cf
    cf_after := round3 s.cf_after
    facts_before := String.intercalate ", " s.facts_before
    facts_after := String.intercalate ", " s.facts_after
    why := s.why
    source := s.source }

/-- The explanation facility state: the per-run trace of reasoning steps
(`ExplanationFacility.trace`; the stored `rules`/`kb` references are not
read by any embedded operation). -/
structure Explanation where
  trace : List ReasoningStep
deriving DecidableEq, Repr

/-- `ExplanationFacility.add_trace_step`: append one step. -/
def Explanation.add_trace_step (e : Explanation) (s : ReasoningStep) :
    Explanation :=
  { trace := e.trace ++ [s] }

/-- `ExplanationFacility.get_trace_formatted`: the trace as UI rows. -/
def Explanation.get_trace_formatted (e : Explanation) : List Row :=
  e.trace.map ReasoningStep.to_row

/-- Insertion sort of strings in lexicographic order, used to model
the Python `sorted(...)` call on fact-id sets inside `_fire_rule`. -/
def insStr (x : String) : List String → List String
  | [] => [x]
  | y :: ys => if x < y then x :: y :: ys else y :: insStr x ys

/-- Lexicographic string sort (Python `sorted(list(...))`). -/
def sortStr (l : List String) : List String :=
  l.foldr insStr []

/-! ## Working memory (fact store)

`inference_engine.py` calls `add_initial_facts`, `has_all_facts`,
`get_fact`, `add_fact`, `get_facts_set` and reads `facts_cf` on its
`WorkingMemory`; the class in `working_memory.py` defines none of them
(see `workingMemoryDefinedMembers` below).  The fact store is therefore
modelled from the spec. -/

/-- The working-memory fact store: an insertion-ordered mapping from fact
id to certainty factor (the `facts_cf` attribute read by
`forward_chaining`). -/
abbrev WM : Type := List (String × ℚ)

/-- Modelled from the spec: `working_memory.py` does not define
`add_initial_facts`; per the spec, initial facts are stored with every
CF clamped to `[0,1]` at write time. -/
def add_initial_facts (init : List (String × ℚ)) : WM :=
  init.foldl (fun wm p => setFact wm p.1 (clamp01 p.2)) []

/-- Modelled from the spec: `working_memory.py` does not define
`get_fact`; it returns the stored CF of a fact, or nothing when the fact
is absent. -/
def WM.get_fact (wm : WM) (f : String) : Option ℚ := getFact wm f

/-- Modelled from the spec: `working_memory.py` does not define
`has_all_facts`; a rule is eligible iff every antecedent id is present
in the fact set (presence, not a CF threshold). -/
def WM.has_all_facts (wm : WM) (ants : List String) : Bool :=
  ants.all (fun a => (wm.get_fact a).isSome)

/-- Modelled from the spec: `working_memory.py` does not define
`add_fact`; the proposed CF is combined into the existing CF (`0` if
absent) by the accumulation law `combined = old + proposed × (1 − old)`,
clamped to `[0,1]`, and the CF delta is returned. -/
def WM.add_fact (wm : WM) (f : String) (proposed : ℚ) : WM × ℚ :=
  let old := (wm.get_fact f).getD 0
  let combined := clamp01 (old + proposed * (1 - old))
  (setFact wm f combined, combined - old)

/-- Modelled from the spec: `working_memory.py` does not define
`get_facts_set`; it is the set of fact ids currently present. -/
def WM.get_facts_set (wm : WM) : List String := wm.map Prod.fst

/-! ## Forward chaining (`InferenceEngine`) -/

/-- The engine object: acceptance threshold (default `0.6`) plus the
mutable `explanation` and `working_memory` fields that persist across
calls on one engine instance. -/
structure Engine where
  threshold : ℚ := 6/10
  explanation : Option Explanation := none
  working_memory : Option WM := none
deriving DecidableEq, Repr

/-- `InferenceEngine._can_fire_rule`: antecedents non-empty and all
present in working memory. -/
def can_fire_rule (wm : WM) (rule : Rule) : Bool :=
  if rule.IF = [] then false else wm.has_all_facts rule.IF

/-- Minimum of a list of CFs, `min(ant_cfs) if ant_cfs else 0.0`. -/
def listMin : List ℚ → ℚ
  | [] => 0
  | x :: xs => xs.foldl qmin x

/-- The antecedent CF aggregation of `_fire_rule`:
`min` over `[wm.get_fact(a) or 0.0 for a in antecedents]`. -/
def antecedentCf (wm : WM) (rule : Rule) : ℚ :=
  listMin (rule.IF.map (fun a => (wm.get_fact a).getD 0))

/-- The proposed CF of `_fire_rule`:
`min(1.0, ant_cf * rule_cf)` (upper clamp only, as in the source). -/
def proposedCf (wm : WM) (rule : Rule) : ℚ :=
  qmin 1 (antecedentCf wm rule * rule.CF)

/-- `InferenceEngine._fire_rule`: fire one rule, update working memory,
record a trace step when the CF delta is significant (`> 1e-6`).
Returns the new memory, the new explanation state and whether the firing
counted (Python: returned a non-`None` dict). -/
def fire_rule (wm : WM) (expl : Option Explanation) (rid : String)
    (rule : Rule) (stepNo : ℕ) : WM × Option Explanation × Bool :=
  if rule.THEN = "" then (wm, expl, false)
  else
    let proposed := proposedCf wm rule
    let before := (wm.get_fact rule.THEN).getD 0
    let (wm1, delta) := wm.add_fact rule.THEN proposed
    if delta ≤ 1/1000000 then (wm1, expl, false)
    else
      let after := (wm1.get_fact rule.THEN).getD 0
      let expl1 := expl.map (fun e =>
        e.add_trace_step
          { step := stepNo
            rule := rid
            matched_if := rule.IF
            derived := rule.THEN
            cf_before := before
            delta_cf := delta
            cf_after := after
            facts_before :=
              sortStr (wm1.get_facts_set.filter (fun f => f ≠ rule.THEN))
            facts_after := sortStr wm1.get_facts_set
            why := rule.ask_why
            source := rule.source })
      (wm1, expl1, true)

/-- State threaded through one sweep of the `for` loop of `_inference_loop`:
working memory, explanation, fired-rule ids, step counter, and whether
any rule fired in this sweep. -/
structure SweepState where
  wm : WM
  expl : Option Explanation
  used : List String
  stepNo : ℕ
  fired : Bool
deriving DecidableEq

/-- One iteration of the `for rid, rule in rules.items()` body. -/
def sweepStep (st : SweepState) (p : String × Rule) : SweepState :=
  if can_fire_rule st.wm p.2 then
    let (wm1, expl1, sig) := fire_rule st.wm st.expl p.1 p.2 (st.stepNo + 1)
    if sig then
      { wm := wm1, expl := expl1, used := st.used ++ [p.1]
        stepNo := st.stepNo + 1, fired := true }
    else
      { st with wm := wm1, expl := expl1 }
  else st

/-- One full sweep over the rule base (one pass of the inner `for`
loop), starting with `fired = False`. -/
def sweep (rules : List (String × Rule)) (wm : WM)
    (expl : Option Explanation) (used : List String) (stepNo : ℕ) :
    SweepState :=
  (rules.foldl sweepStep
    { wm := wm, expl := expl, used := used, stepNo := stepNo
      fired := false })

/-- The `while fired and step_no < max_steps` loop of `_inference_loop`,
with explicit fuel (the Python loop terminates; fuel `maxSteps + 1`
always suffices because each continuing sweep strictly increases
`step_no`). -/
def loopAux (rules : List (String × Rule)) (maxSteps : ℕ) :
    ℕ → WM → Option Explanation → List String → ℕ →
    WM × Option Explanation × List String
  | 0, wm, expl, used, _ => (wm, expl, used)
  | fuel + 1, wm, expl, used, stepNo =>
      if stepNo < maxSteps then
        if (sweep rules wm expl used stepNo).fired then
          loopAux rules maxSteps fuel (sweep rules wm expl used stepNo).wm
            (sweep rules wm expl used stepNo).expl
            (sweep rules wm expl used stepNo).used
            (sweep rules wm expl used stepNo).stepNo
        else
          ((sweep rules wm expl used stepNo).wm,
           (sweep rules wm expl used stepNo).expl,
           (sweep rules wm expl used stepNo).used)
      else (wm, expl, used)

/-- `max_steps = limit if limit is not None else max(50, len(rules)*3)`. -/
def maxStepsOf (limit : Option ℕ) (rules : List (String × Rule)) : ℕ :=
  match limit with
  | some l => l
  | none => Nat.max 50 (rules.length * 3)

/-- `InferenceEngine._inference_loop`. -/
def inference_loop (rules : List (String × Rule)) (wm : WM)
    (expl : Option Explanation) (limit : Option ℕ) :
    WM × Option Explanation × List String :=
  let maxSteps := maxStepsOf limit rules
  loopAux rules maxSteps (maxSteps + 1) wm expl [] 0

/-- The result dict of `forward_chaining`. -/
structure FCResult where
  facts_cf : List (String × ℚ)
  conclusions : List (String × ℚ)
  used_rules : List String
  reasoning_path : String
  trace : List Row
deriving DecidableEq, Repr

/-- `InferenceEngine.forward_chaining`: build a fresh working memory from
the initial facts, replace the explanation facility when a `kb` is
supplied (otherwise keep the previous one held by the engine), run the inference
loop, and assemble the result dict.  Returns the updated engine object
and the result. -/
def forward_chaining (e : Engine) (rules : List (String × Rule))
    (init : List (String × ℚ)) (kb : Option KB) (limit : Option ℕ) :
    Engine × FCResult :=
  let wm0 := add_initial_facts init
  let expl0 : Option Explanation :=
    match kb with
    | some _ => some { trace := [] }
    | none => e.explanation
  let (wm1, expl1, used) := inference_loop rules wm0 expl0 limit
  ({ e with working_memory := some wm1, explanation := expl1 },
   { facts_cf := wm1
     conclusions := wm1
     used_rules := used
     reasoning_path := String.intercalate " -> " used
     trace := match expl1 with
              | some ex => ex.get_trace_formatted
              | none => [] })

/-! ## Backward chaining (`InferenceEngine.backward_chaining`)

The Python recursion always terminates (each recursive call strictly
grows the visited set, which is drawn from the finite set of fact ids in
the rule base); the embedding takes explicit fuel.  The Python
`visited.copy()` argument means every sibling antecedent sub-proof
receives a copy of the same set; the pure embedding passes the same
(immutable) list to each sibling. -/

/-- The result dict of `backward_chaining`. -/
structure BCResult where
  success : Bool
  goal : String
  cf : ℚ
  used_rules : List String
  reasoning_path : String
  trace : List Row
deriving DecidableEq, Repr

/-- The failure result returned on cycle detection, fuel exhaustion or
no applicable rule. -/
def bcFail (goal : String) : BCResult :=
  { success := false, goal := goal, cf := 0, used_rules := []
    reasoning_path := "", trace := [] }

/-- The base-case test `goal in facts_cf and facts_cf[goal] > 0.0`:
returns the raw stored CF when the goal is a known positive fact. -/
def baseCf (facts : List (String × ℚ)) (goal : String) : Option ℚ :=
  match getFact facts goal with
  | some c => if 0 < c then some c else none
  | none => none

/-- Prove every antecedent in order (the inner `for antecedent in
antecedents` loop): a known positive fact is used directly, otherwise
the supplied recursive prover is called with the same visited set for
every sibling.  Returns the antecedent CFs, accumulated sub-proof rule
ids and traces, or `none` on the first failure (`break`). -/
def proveAnts (bcPrev : String → List String → BCResult)
    (facts : List (String × ℚ)) :
    List String → List String → Option (List ℚ × List String × List Row)
  | [], _ => some ([], [], [])
  | a :: rest, visited =>
      match baseCf facts a with
      | some c =>
          match proveAnts bcPrev facts rest visited with
          | some (cfs, us, ts) => some (c :: cfs, us, ts)
          | none => none
      | none =>
          let sub := bcPrev a visited
          if sub.success then
            match proveAnts bcPrev facts rest visited with
            | some (cfs, us, ts) =>
                some (sub.cf :: cfs, sub.used_rules ++ us, sub.trace ++ ts)
            | none => none
          else none

/-- Try one candidate rule (`for rule_id, rule in candidate_rules`
body), keeping the best result by strict CF comparison. -/
def bcTryRule (bcPrev : String → List String → BCResult)
    (facts : List (String × ℚ)) (goal : String) (visited1 : List String)
    (best : Option BCResult × ℚ) (p : String × Rule) :
    Option BCResult × ℚ :=
  if p.2.IF = [] then best
  else
    match proveAnts bcPrev facts p.2.IF visited1 with
    | none => best
    | some (antCfs, subUsed, subTraces) =>
        let antCf := listMin antCfs
        let goalCf := clamp01 (antCf * p.2.CF)
        if best.2 < goalCf then
          let step : ReasoningStep :=
            { step := subTraces.length + 1
              rule := p.1
              matched_if := p.2.IF
              derived := goal
              cf_before := 0
              delta_cf := goalCf
              cf_after := goalCf
              facts_before := sortStr (facts.map Prod.fst)
              facts_after := sortStr ((facts.map Prod.fst ++ [goal]).dedup)
              why := p.2.ask_why
              source := p.2.source }
          (some { success := true, goal := goal, cf := goalCf
                  used_rules := subUsed ++ [p.1]
                  reasoning_path :=
                    String.intercalate " -> " (subUsed ++ [p.1])
                  trace := subTraces ++ [step.to_row] }, goalCf)
        else best

/-- One unfolding of `backward_chaining`: base case, cycle guard, then
the candidate-rule search, with `bcPrev` standing for the recursive
calls on sub-goals. -/
def bcStep (rules : List (String × Rule)) (facts : List (String × ℚ))
    (bcPrev : String → List String → BCResult) (goal : String)
    (visited : List String) : BCResult :=
  match baseCf facts goal with
  | some c =>
      { success := true, goal := goal, cf := clamp01 c, used_rules := []
        reasoning_path := "", trace := [] }
  | none =>
      if goal ∈ visited then bcFail goal
      else
        let visited1 := goal :: visited
        let candidates := rules.filter (fun p => p.2.THEN = goal)
        if candidates = [] then bcFail goal
        else
          let best :=
            candidates.foldl (bcTryRule bcPrev facts goal visited1) (none, 0)
          match best.1 with
          | some r => r
          | none => bcFail goal

/-- `InferenceEngine.backward_chaining` with explicit fuel (fuel
exhaustion, which the Python recursion never reaches, yields the
failure record). -/
def backward_chaining (rules : List (String × Rule))
    (facts : List (String × ℚ)) : ℕ → String → List String → BCResult
  | 0 => fun goal _ => bcFail goal
  | fuel + 1 => bcStep rules facts (backward_chaining rules facts fuel)

/-! ## Suggestion engines -/

/-- Name of a symptom (`getattr(symptom_obj, "nama", sid)` up to quoting). -/
def symName (kb : KB) (sid : String) : String :=
  match alget kb.symptoms sid with
  | some s => s.nama
  | none => sid

/-- Name of a disease (`getattr(disease_obj, "nama", disease_id)` up to quoting). -/
def disName (kb : KB) (did : String) : String :=
  match alget kb.diseases did with
  | some d => d.nama
  | none => did

/-- Stable insertion into a descending-sorted list: `x` goes after every
element whose key is `≥` its own, matching the stability of the Python call
`list.sort(key=..., reverse=True)`. -/
def insDesc {α : Type} (key : α → ℚ) : List α → α → List α
  | [], x => [x]
  | y :: ys, x =>
      if key x ≤ key y then y :: insDesc key ys x else x :: y :: ys

/-- Stable sort by descending key (`suggestions.sort(key=..., reverse=True)` on the percentage field). -/
def sortDesc {α : Type} (key : α → ℚ) (l : List α) : List α :=
  l.foldl (insDesc key) []

/-- One suggestion produced by `InferenceEngine.get_suggestions`
(per-rule, not aggregated; the presentation-only name list for missing
symptoms is omitted — Python materialises it in unspecified set order). -/
structure EngSuggestion where
  disease_id : String
  disease_name : String
  matched_count : ℕ
  total_required : ℕ
  percentage : ℚ
  missing_symptom_ids : Finset String
  current_symptoms : Finset String
  rule_id : String
deriving DecidableEq

/-- The candidate `InferenceEngine.get_suggestions` emits for one rule,
or `none` when the rule is skipped (`continue`). -/
def engineSuggestionOfRule (selF : Finset String) (kb : KB)
    (p : String × Rule) : Option EngSuggestion :=
  if p.2.IF = [] ∨ p.2.THEN = "" then none
  else
    let reqF := p.2.IF.toFinset
    let matched := selF ∩ reqF
    let missing := reqF \ selF
    if 0 < matched.card ∧ 0 < missing.card then
      some { disease_id := p.2.THEN
             disease_name := disName kb p.2.THEN
             matched_count := matched.card
             total_required := reqF.card
             percentage := (matched.card : ℚ) / (reqF.card : ℚ) * 100
             missing_symptom_ids := missing
             current_symptoms := matched
             rule_id := p.1 }
    else none

/-- `InferenceEngine.get_suggestions`: one candidate per
partially-matching rule, sorted by descending match percentage. -/
def engine_get_suggestions (symptom_ids : List String) (kb : KB) :
    List EngSuggestion :=
  sortDesc (fun s => s.percentage)
    (kb.rules.filterMap (engineSuggestionOfRule symptom_ids.toFinset kb))

/-- Per-disease aggregation record built by
`ExplanationFacility.get_suggestions` (`disease_candidates[d]`). -/
structure Cand where
  matched : Finset String
  missing : Finset String
  required : Finset String
deriving DecidableEq

/-- One suggestion produced by `ExplanationFacility.get_suggestions`. -/
structure ExpSuggestion where
  disease_id : String
  disease_name : String
  matched_count : ℕ
  total_required : ℕ
  percentage : ℚ
  missing_symptom_ids : Finset String
deriving DecidableEq

/-- A rule contributes a candidate for the explanation-facility
aggregation: non-empty antecedents, a truthy consequent present in the
disease catalogue, and non-empty matched and missing sets. -/
def contributes (selF : Finset String) (kb : KB) (p : String × Rule) :
    Prop :=
  p.2.IF ≠ [] ∧ p.2.THEN ≠ "" ∧
  (alget kb.diseases p.2.THEN).isSome = true ∧
  (selF ∩ p.2.IF.toFinset).Nonempty ∧ (p.2.IF.toFinset \ selF).Nonempty

instance (selF : Finset String) (kb : KB) (p : String × Rule) :
    Decidable (contributes selF kb p) := by
  unfold contributes; infer_instance

/-- Update the per-disease candidate association list: union the new
matched/missing/required sets into an existing entry, else append a new
entry (Python dict insertion order). -/
def updCand : List (String × Cand) → String → Finset String →
    Finset String → Finset String → List (String × Cand)
  | [], d, m, mi, req => [(d, ⟨m, mi, req⟩)]
  | (d0, c) :: rest, d, m, mi, req =>
      if d0 = d then
        (d0, ⟨c.matched ∪ m, c.missing ∪ mi, c.required ∪ req⟩) :: rest
      else (d0, c) :: updCand rest d m mi req

/-- One iteration of the aggregation loop of
`ExplanationFacility.get_suggestions`. -/
def candStep (selF : Finset String) (kb : KB)
    (acc : List (String × Cand)) (p : String × Rule) :
    List (String × Cand) :=
  if contributes selF kb p then
    updCand acc p.2.THEN (selF ∩ p.2.IF.toFinset)
      (p.2.IF.toFinset \ selF) p.2.IF.toFinset
  else acc

/-- The `disease_candidates` mapping after the aggregation loop. -/
def buildCands (selF : Finset String) (kb : KB)
    (rules : List (String × Rule)) : List (String × Cand) :=
  rules.foldl (candStep selF kb) []

/-- `ExplanationFacility.get_suggestions`: aggregate per disease, then
emit one suggestion per disease, sorted by descending percentage. -/
def explanation_get_suggestions (symptom_ids : List String) (kb : KB) :
    List ExpSuggestion :=
  let selF := symptom_ids.toFinset
  sortDesc (fun s => s.percentage)
    ((buildCands selF kb kb.rules).map (fun p =>
      { disease_id := p.1
        disease_name := disName kb p.1
        matched_count := p.2.matched.card
        total_required := p.2.required.card
        percentage :=
          if 0 < p.2.required.card then
            (p.2.matched.card : ℚ) / (p.2.required.card : ℚ) * 100
          else 0
        missing_symptom_ids := p.2.missing }))

/-- Union of matched symptoms over all contributing rules whose
consequent is `d` (the per-disease aggregate of the spec). -/
def aggMatched (selF : Finset String) (kb : KB)
    (rules : List (String × Rule)) (d : String) : Finset String :=
  rules.foldl (fun acc p =>
    if contributes selF kb p ∧ p.2.THEN = d then
      acc ∪ (selF ∩ p.2.IF.toFinset)
    else acc) ∅

/-- Union of missing symptoms over all contributing rules for `d`. -/
def aggMissing (selF : Finset String) (kb : KB)
    (rules : List (String × Rule)) (d : String) : Finset String :=
  rules.foldl (fun acc p =>
    if contributes selF kb p ∧ p.2.THEN = d then
      acc ∪ (p.2.IF.toFinset \ selF)
    else acc) ∅

/-- Union of required symptoms over all contributing rules for `d`. -/
def aggRequired (selF : Finset String) (kb : KB)
    (rules : List (String × Rule)) (d : String) : Finset String :=
  rules.foldl (fun acc p =>
    if contributes selF kb p ∧ p.2.THEN = d then
      acc ∪ p.2.IF.toFinset
    else acc) ∅

/-! ## Diagnosis pipeline (`InferenceEngine.diagnose`) -/

/-- Weight of a symptom, `s_map.get("weight", 1.0)` with missing
symptoms mapping to the empty dict. -/
def symWeight (kb : KB) (sid : String) : ℚ :=
  match alget kb.symptoms sid with
  | some s => s.weight
  | none => 1

/-- `min(1.0, max(0.0, user_cf or 1.0))`: the Python `or` substitutes the
default `1.0` exactly when `user_cf` is falsy, i.e. equal to `0.0`. -/
def userCfClamped (user_cf : ℚ) : ℚ :=
  clamp01 (if user_cf = 0 then 1 else user_cf)

/-- The initial fact build of `diagnose`:
`initial_facts_cf[sid] = min(1.0, max(0.0, user_cf_clamped * weight))`. -/
def buildInitialFacts (kb : KB) (symptom_ids : List String)
    (user_cf : ℚ) : List (String × ℚ) :=
  symptom_ids.foldl (fun acc sid =>
    setFact acc sid
      (clamp01 (userCfClamped user_cf * symWeight kb sid))) []

/-- The best-disease scan of `diagnose`: iterate the disease catalogue
in order, keeping the first disease whose CF strictly exceeds the
current best (initially `(None, 0.0)`). -/
def selectBestDisease (diseases : List (String × Disease))
    (conclusions : List (String × ℚ)) : Option String × ℚ :=
  diseases.foldl (fun best p =>
    let cf := (getFact conclusions p.1).getD 0
    if best.2 < cf then (some p.1, cf) else best) (none, 0)

/-- Python truthiness of `best_disease_id`: `None` and the empty string
are falsy. -/
def truthyId : Option String → Bool
  | none => false
  | some d => if d = "" then false else true

/-- The four mutually exclusive diagnosis statuses. -/
inductive DStatus
  | SUCCESS
  | NEEDS_MORE_INFO
  | INCONCLUSIVE
  | FAILED
deriving DecidableEq, Repr

/-- The result dict of `diagnose` (presentation-only fields —
`symptom_details`, `rules_details`, `recommendation`, `prevention`,
`disease_info`, `conclusion_label` — are omitted; no claim mentions
them). -/
structure DiagnoseResult where
  facts : List String
  trace : List Row
  used_rules : List String
  reasoning_path : String
  conclusion : Option String
  cf : ℚ
  status : DStatus
  suggestions : List EngSuggestion
deriving DecidableEq

/-- `InferenceEngine.diagnose`: build initial facts, run forward
chaining (always passing the truthy `kb`, hence a fresh explanation),
select the best disease, and classify the outcome.  In the `SUCCESS`
branch the CF is rounded to three decimals; otherwise the raw best CF
is returned together with the per-rule suggestion list. -/
def diagnose (e : Engine) (symptom_ids : List String) (user_cf : ℚ)
    (kb : KB) : DiagnoseResult :=
  let init := buildInitialFacts kb symptom_ids user_cf
  let fwd := (forward_chaining e kb.rules init (some kb) none).2
  let best := selectBestDisease kb.diseases fwd.conclusions
  if truthyId best.1 = true ∧ e.threshold ≤ best.2 then
    { facts := init.map Prod.fst
      trace := fwd.trace
      used_rules := fwd.used_rules
      reasoning_path := fwd.reasoning_path
      conclusion := best.1
      cf := round3 best.2
      status := .SUCCESS
      suggestions := [] }
  else
    let sugg := engine_get_suggestions symptom_ids kb
    { facts := init.map Prod.fst
      trace := fwd.trace
      used_rules := fwd.used_rules
      reasoning_path := fwd.reasoning_path
      conclusion := none
      cf := best.2
      status :=
        if sugg ≠ [] then DStatus.NEEDS_MORE_INFO
        else if fwd.used_rules ≠ [] then DStatus.INCONCLUSIVE
        else DStatus.FAILED
      suggestions := sugg }

/-- The best disease CF a diagnosis run computes (for stating the
outcome classification). -/
def diagnoseBest (e : Engine) (symptom_ids : List String) (user_cf : ℚ)
    (kb : KB) : Option String × ℚ :=
  selectBestDisease kb.diseases
    (forward_chaining e kb.rules (buildInitialFacts kb symptom_ids user_cf)
      (some kb) none).2.conclusions

/-- The fired-rule list a diagnosis run computes. -/
def diagnoseUsedRules (e : Engine) (symptom_ids : List String)
    (user_cf : ℚ) (kb : KB) : List String :=
  (forward_chaining e kb.rules (buildInitialFacts kb symptom_ids user_cf)
    (some kb) none).2.used_rules

/-! ## `working_memory.py` member inventory (for the interface claim) -/

/-- The attributes and methods the `WorkingMemory` class in
`working_memory.py` actually defines (its `__init__` attributes and its
`def`s, `__repr__` included). -/
def workingMemoryDefinedMembers : List String :=
  ["facts", "inferred_diseases", "fired_rules", "session_id", "metadata",
   "add_symptom", "add_symptoms_batch", "has_symptom", "get_symptom_cf",
   "get_all_symptoms", "add_inferred_disease", "_combine_cf",
   "mark_rule_fired", "is_rule_fired", "get_diagnosis_results",
   "get_top_disease", "clear", "get_summary", "__repr__"]

/-- The `WorkingMemory` members `InferenceEngine.forward_chaining` and
its helpers access (`inference_engine.py` lines 57, 68-69, 111, 131,
139-145, 150, 162-163). -/
def forwardChainingRequiredMembers : List String :=
  ["add_initial_facts", "facts_cf", "has_all_facts", "get_fact",
   "add_fact", "get_facts_set"]

/-- `WorkingMemory._combine_cf` (`working_memory.py` lines 92-109):
the MYCIN-style two-sided combination with a division branch for
mixed-sign or zero inputs.  In Python, a zero denominator raises
`ZeroDivisionError`; in this embedding `x / 0 = 0`, and the zero-denominator
situation is exhibited separately. -/
def combine_cf (cf1 cf2 : ℚ) : ℚ :=
  if 0 < cf1 ∧ 0 < cf2 then cf1 + cf2 * (1 - cf1)
  else if cf1 < 0 ∧ cf2 < 0 then cf1 + cf2 * (1 + cf1)
  else (cf1 + cf2) / (1 - min |cf1| |cf2|)

/-! ## Concrete example data used by witnesses and counterexamples -/

/-- A one-rule base whose rule has CF `0.8`; with fact `G1 = 1.0` the rule
stays eligible and keeps strengthening `P1` across sweeps. -/
def c1rules : List (String × Rule) :=
  [("R1", { IF := ["G1"], THEN := "P1", CF := 4/5 })]

/-- The single initial fact `G1 = 1.0`. -/
def c1facts : List (String × ℚ) := [("G1", 1)]

/-- The forward-chaining run for the repeat-firing example. -/
def c1run : FCResult :=
  (forward_chaining {} c1rules c1facts none none).2

/-- Two rules that are both immediately eligible from `G1 = 1.0`. -/
def c7rules : List (String × Rule) :=
  [("R1", { IF := ["G1"], THEN := "P1", CF := 1 }),
   ("R2", { IF := ["G1"], THEN := "P2", CF := 1 })]

/-- The forward-chaining run with caller-supplied limit `1`. -/
def c7run : FCResult :=
  (forward_chaining {} c7rules c1facts none (some 1)).2

/-- One-rule base with CF `1.0` (fires exactly once per run). -/
def c9rules : List (String × Rule) :=
  [("R1", { IF := ["G1"], THEN := "P1", CF := 1 })]

/-- A knowledge base wrapping `c9rules`. -/
def c9kb : KB :=
  { rules := c9rules
    symptoms := [("G1", {})]
    diseases := [("P1", { nama := "PA" })] }

/-- The engine object left behind by a first run with a knowledge base:
its `explanation` field still holds the trace of that run. -/
def c9engine : Engine := (forward_chaining {} c9rules c1facts (some c9kb) none).1

/-- A second run on the same engine with `kb = None`: the stale
explanation facility keeps accumulating. -/
def c9runB : Engine × FCResult := forward_chaining c9engine c9rules c1facts none none

/-- A third run, identical inputs to the second. -/
def c9runC : Engine × FCResult := forward_chaining c9runB.1 c9rules c1facts none none

/-- Two distinct rules with the same antecedents and the same consequent
disease `P1`; selecting only `G1` makes both partial matches. -/
def c6kb : KB :=
  { rules := [("R1", { IF := ["G1", "G2"], THEN := "P1", CF := 1 }),
              ("R2", { IF := ["G1", "G2"], THEN := "P1", CF := 1 })]
    symptoms := [("G1", {}), ("G2", {})]
    diseases := [("P1", { nama := "PA" })] }

/-- A KB on which `diagnose` reaches `SUCCESS` (single rule, CF 1). -/
def c5kb : KB :=
  { rules := [("R1", { IF := ["G1"], THEN := "P1", CF := 1 })]
    symptoms := [("G1", {})]
    diseases := [("P1", { nama := "PA" })] }

/-- A small working memory with two in-range facts. -/
def c3wm : WM := [("G1", 1), ("G2", 1/2)]

/-- A rule with two antecedents and CF `0.8`. -/
def c3rule : Rule := { IF := ["G1", "G2"], THEN := "P1", CF := 4/5 }

/-! ## Basic lemmas -/

theorem qmin_eq (a b : ℚ) : qmin a b = min a b := by
  rw [qmin, min_def]

theorem qmax_eq (a b : ℚ) : qmax a b = max a b := by
  rw [qmax, max_def]

theorem qmin_le_left (a b : ℚ) : qmin a b ≤ a := by
  rw [qmin_eq]; exact min_le_left a b

theorem qmin_le_right (a b : ℚ) : qmin a b ≤ b := by
  rw [qmin_eq]; exact min_le_right a b

theorem qmin_choice (a b : ℚ) : qmin a b = a ∨ qmin a b = b := by
  rw [qmin]; split
  · exact Or.inl rfl
  · exact Or.inr rfl

theorem clamp01_nonneg (x : ℚ) : 0 ≤ clamp01 x := by
  rw [clamp01, qmin_eq, qmax_eq]
  exact le_min (by norm_num) (le_max_left 0 x)

theorem clamp01_le_one (x : ℚ) : clamp01 x ≤ 1 := by
  rw [clamp01, qmin_eq]
  exact min_le_left 1 _

theorem clamp01_of_mem (x : ℚ) (h0 : 0 ≤ x) (h1 : x ≤ 1) : clamp01 x = x := by
  rw [clamp01, qmin_eq, qmax_eq, max_eq_right h0, min_eq_right h1]

theorem getFact_mem {l : List (String × ℚ)} {f : String} {c : ℚ}
    (h : getFact l f = some c) : (f, c) ∈ l := by
  induction l with
  | nil => simp [getFact] at h
  | cons p rest ih =>
      rw [getFact] at h
      split at h
      · rename_i heq
        cases h
        subst heq
        exact List.mem_cons_self _ _
      · exact List.mem_cons_of_mem _ (ih h)

theorem mem_setFact {l : List (String × ℚ)} {f : String} {c : ℚ} {q : String × ℚ}
    (h : q ∈ setFact l f c) : q = (f, c) ∨ q ∈ l := by
  induction l with
  | nil => simpa [setFact] using h
  | cons p rest ih =>
      rw [setFact] at h
      split at h
      · rename_i heq
        rcases List.mem_cons.1 h with h1 | h1
        · left; rw [h1, heq]
        · right; exact List.mem_cons_of_mem _ h1
      · rcases List.mem_cons.1 h with h1 | h1
        · right; rw [h1]; exact List.mem_cons_self _ _
        · rcases ih h1 with h2 | h2
          · exact Or.inl h2
          · exact Or.inr (List.mem_cons_of_mem _ h2)

theorem foldl_qmin_mem (xs : List ℚ) (a : ℚ) :
    xs.foldl qmin a = a ∨ xs.foldl qmin a ∈ xs := by
  induction xs generalizing a with
  | nil => exact Or.inl rfl
  | cons x xs ih =>
      rw [List.foldl_cons]
      rcases ih (qmin a x) with h | h
      · rw [h]
        rcases qmin_choice a x with h1 | h1
        · exact Or.inl h1
        · refine Or.inr ?_
          rw [h1]
          exact List.mem_cons_self _ _
      · exact Or.inr (List.mem_cons_of_mem _ h)

theorem foldl_qmin_le (xs : List ℚ) (a : ℚ) :
    xs.foldl qmin a ≤ a ∧ ∀ c ∈ xs, xs.foldl qmin a ≤ c := by
  induction xs generalizing a with
  | nil => exact ⟨le_refl a, by intro c hc; simp at hc⟩
  | cons x xs ih =>
      rw [List.foldl_cons]
      obtain ⟨h1, h2⟩ := ih (qmin a x)
      refine ⟨le_trans h1 (qmin_le_left a x), ?_⟩
      intro c hc
      rcases List.mem_cons.1 hc with h3 | h3
      · subst h3
        exact le_trans h1 (qmin_le_right a c)
      · exact h2 c h3

theorem listMin_mem {xs : List ℚ} (h : xs ≠ []) : listMin xs ∈ xs := by
  cases xs with
  | nil => exact absurd rfl h
  | cons x xs =>
      rw [listMin]
      rcases foldl_qmin_mem xs x with h1 | h1
      · rw [h1]
        exact List.mem_cons_self _ _
      · exact List.mem_cons_of_mem _ h1

theorem listMin_le {xs : List ℚ} {c : ℚ} (hc : c ∈ xs) : listMin xs ≤ c := by
  cases xs with
  | nil => simp at hc
  | cons x xs =>
      rw [listMin]
      rcases List.mem_cons.1 hc with h1 | h1
      · exact h1 ▸ (foldl_qmin_le xs x).1
      · exact (foldl_qmin_le xs x).2 c h1

/-! ## Lemmas on the inference loop -/

theorem sweepStep_spec (st : SweepState) (p : String × Rule) :
    ((sweepStep st p).used = st.used ∧ (sweepStep st p).stepNo = st.stepNo) ∨
    ((sweepStep st p).used = st.used ++ [p.1] ∧
      (sweepStep st p).stepNo = st.stepNo + 1) := by
  unfold sweepStep
  split
  · rcases h : fire_rule st.wm st.expl p.1 p.2 (st.stepNo + 1) with ⟨wm1, expl1, sig⟩
    cases sig
    · exact Or.inl ⟨rfl, rfl⟩
    · exact Or.inr ⟨rfl, rfl⟩
  · exact Or.inl ⟨rfl, rfl⟩

theorem foldl_sweepStep_spec (rules : List (String × Rule)) (st : SweepState) :
    ∃ δ : List String, (rules.foldl sweepStep st).used = st.used ++ δ ∧
      (rules.foldl sweepStep st).stepNo = st.stepNo + δ.length ∧
      δ.length ≤ rules.length := by
  induction rules generalizing st with
  | nil => exact ⟨[], by simp⟩
  | cons p rules ih =>
      rw [List.foldl_cons]
      obtain ⟨δ2, h1, h2, h3⟩ := ih (sweepStep st p)
      rcases sweepStep_spec st p with ⟨e1, e2⟩ | ⟨e1, e2⟩
      · refine ⟨δ2, ?_, ?_, ?_⟩
        · rw [h1, e1]
        · rw [h2, e2]
        · simp only [List.length_cons]
          omega
      · refine ⟨p.1 :: δ2, ?_, ?_, ?_⟩
        · rw [h1, e1]
          simp
        · rw [h2, e2]
          simp only [List.length_cons]
          omega
        · simp only [List.length_cons]
          omega

theorem sweep_spec (rules : List (String × Rule)) (wm : WM)
    (expl : Option Explanation) (used : List String) (stepNo : ℕ) :
    ∃ δ : List String, (sweep rules wm expl used stepNo).used = used ++ δ ∧
      (sweep rules wm expl used stepNo).stepNo = stepNo + δ.length ∧
      δ.length ≤ rules.length := by
  simpa [sweep] using foldl_sweepStep_spec rules
    { wm := wm, expl := expl, used := used, stepNo := stepNo, fired := false }

theorem loopAux_bound (rules : List (String × Rule)) (maxSteps : ℕ) :
    ∀ (fuel : ℕ) (wm : WM) (expl : Option Explanation) (used : List String)
      (stepNo : ℕ), used.length = stepNo →
      (loopAux rules maxSteps fuel wm expl used stepNo).2.2.length ≤
        Nat.max used.length (maxSteps + rules.length) := by
  intro fuel
  induction fuel with
  | zero =>
      intro wm expl used stepNo _
      rw [loopAux]
      exact Nat.le_max_left _ _
  | succ fuel ih =>
      intro wm expl used stepNo hinv
      rw [loopAux]
      split
      · rename_i hlt
        obtain ⟨δ, h1, h2, h3⟩ := sweep_spec rules wm expl used stepNo
        have hlen : (sweep rules wm expl used stepNo).used.length =
            stepNo + δ.length := by
          rw [h1, List.length_append, hinv]
        have hle : (sweep rules wm expl used stepNo).used.length ≤
            maxSteps + rules.length := by
          omega
        split
        · have hinv2 : (sweep rules wm expl used stepNo).used.length =
              (sweep rules wm expl used stepNo).stepNo := by
            rw [hlen, h2]
          have := ih (sweep rules wm expl used stepNo).wm
            (sweep rules wm expl used stepNo).expl
            (sweep rules wm expl used stepNo).used
            (sweep rules wm expl used stepNo).stepNo hinv2
          refine le_trans this ?_
          have : Nat.max (sweep rules wm expl used stepNo).used.length
              (maxSteps + rules.length) = maxSteps + rules.length :=
            Nat.max_eq_right hle
          rw [this]
          exact Nat.le_max_right _ _
        · refine le_trans hle ?_
          exact Nat.le_max_right _ _
      · exact Nat.le_max_left _ _

theorem inference_loop_bound (rules : List (String × Rule)) (wm : WM)
    (expl : Option Explanation) (limit : Option ℕ) :
    (inference_loop rules wm expl limit).2.2.length ≤
      maxStepsOf limit rules + rules.length := by
  have := loopAux_bound rules (maxStepsOf limit rules)
    (maxStepsOf limit rules + 1) wm expl [] 0 rfl
  simpa [inference_loop] using this

theorem forward_chaining_used_bound (e : Engine)
    (rules : List (String × Rule)) (init : List (String × ℚ))
    (kb : Option KB) (limit : Option ℕ) :
    (forward_chaining e rules init kb limit).2.used_rules.length ≤
      maxStepsOf limit rules + rules.length := by
  cases kb with
  | some k =>
      have h := inference_loop_bound rules (add_initial_facts init)
        (some { trace := [] }) limit
      rcases hloop : inference_loop rules (add_initial_facts init)
        (some { trace := [] }) limit with ⟨wm1, expl1, used⟩
      rw [hloop] at h
      simpa [forward_chaining, hloop] using h
  | none =>
      have h := inference_loop_bound rules (add_initial_facts init)
        e.explanation limit
      rcases hloop : inference_loop rules (add_initial_facts init)
        e.explanation limit with ⟨wm1, expl1, used⟩
      rw [hloop] at h
      simpa [forward_chaining, hloop] using h

/-! ## Lemmas: the explanation state never influences facts or firing -/

theorem fire_rule_indep (wm : WM) (e1 e2 : Option Explanation) (rid : String)
    (rule : Rule) (n : ℕ) :
    (fire_rule wm e1 rid rule n).1 = (fire_rule wm e2 rid rule n).1 ∧
    (fire_rule wm e1 rid rule n).2.2 = (fire_rule wm e2 rid rule n).2.2 := by
  unfold fire_rule
  split
  · exact ⟨rfl, rfl⟩
  · dsimp only
    rcases h : WM.add_fact wm rule.THEN (proposedCf wm rule) with ⟨wm1, delta⟩
    split_ifs
    · exact ⟨rfl, rfl⟩
    · exact ⟨rfl, rfl⟩

theorem sweepStep_indep (wm : WM) (e1 e2 : Option Explanation)
    (used : List String) (stepNo : ℕ) (fired : Bool) (p : String × Rule) :
    ∃ wm1 used1 stepNo1 fired1 x1 x2,
      sweepStep ⟨wm, e1, used, stepNo, fired⟩ p = ⟨wm1, x1, used1, stepNo1, fired1⟩ ∧
      sweepStep ⟨wm, e2, used, stepNo, fired⟩ p = ⟨wm1, x2, used1, stepNo1, fired1⟩ := by
  obtain ⟨hw, hs⟩ := fire_rule_indep wm e1 e2 p.1 p.2 (stepNo + 1)
  unfold sweepStep
  dsimp only
  by_cases hc : can_fire_rule wm p.2 = true
  · rw [if_pos hc, if_pos hc]
    rcases h1 : fire_rule wm e1 p.1 p.2 (stepNo + 1) with ⟨wmA, xA, sA⟩
    rcases h2 : fire_rule wm e2 p.1 p.2 (stepNo + 1) with ⟨wmB, xB, sB⟩
    rw [h1, h2] at hw hs
    simp only at hw hs
    subst hw
    subst hs
    cases sA
    · exact ⟨wmA, used, stepNo, fired, xA, xB, rfl, rfl⟩
    · exact ⟨wmA, used ++ [p.1], stepNo + 1, true, xA, xB, rfl, rfl⟩
  · rw [if_neg hc, if_neg hc]
    exact ⟨wm, used, stepNo, fired, e1, e2, rfl, rfl⟩

theorem foldl_sweepStep_indep (rules : List (String × Rule)) :
    ∀ (wm : WM) (e1 e2 : Option Explanation) (used : List String)
      (stepNo : ℕ) (fired : Bool),
      (rules.foldl sweepStep ⟨wm, e1, used, stepNo, fired⟩).wm =
        (rules.foldl sweepStep ⟨wm, e2, used, stepNo, fired⟩).wm ∧
      (rules.foldl sweepStep ⟨wm, e1, used, stepNo, fired⟩).used =
        (rules.foldl sweepStep ⟨wm, e2, used, stepNo, fired⟩).used ∧
      (rules.foldl sweepStep ⟨wm, e1, used, stepNo, fired⟩).stepNo =
        (rules.foldl sweepStep ⟨wm, e2, used, stepNo, fired⟩).stepNo ∧
      (rules.foldl sweepStep ⟨wm, e1, used, stepNo, fired⟩).fired =
        (rules.foldl sweepStep ⟨wm, e2, used, stepNo, fired⟩).fired := by
  induction rules with
  | nil =>
      intro wm e1 e2 used stepNo fired
      exact ⟨rfl, rfl, rfl, rfl⟩
  | cons p rules ih =>
      intro wm e1 e2 used stepNo fired
      rw [List.foldl_cons, List.foldl_cons]
      obtain ⟨wm1, used1, stepNo1, fired1, x1, x2, h1, h2⟩ :=
        sweepStep_indep wm e1 e2 used stepNo fired p
      rw [h1, h2]
      exact ih wm1 x1 x2 used1 stepNo1 fired1

theorem sweep_indep (rules : List (String × Rule)) (wm : WM)
    (e1 e2 : Option Explanation) (used : List String) (stepNo : ℕ) :
    (sweep rules wm e1 used stepNo).wm = (sweep rules wm e2 used stepNo).wm ∧
    (sweep rules wm e1 used stepNo).used = (sweep rules wm e2 used stepNo).used ∧
    (sweep rules wm e1 used stepNo).stepNo =
      (sweep rules wm e2 used stepNo).stepNo ∧
    (sweep rules wm e1 used stepNo).fired =
      (sweep rules wm e2 used stepNo).fired := by
  unfold sweep
  exact foldl_sweepStep_indep rules wm e1 e2 used stepNo false

theorem loopAux_indep (rules : List (String × Rule)) (maxSteps : ℕ) :
    ∀ (fuel : ℕ) (wm : WM) (e1 e2 : Option Explanation) (used : List String)
      (stepNo : ℕ),
      (loopAux rules maxSteps fuel wm e1 used stepNo).1 =
        (loopAux rules maxSteps fuel wm e2 used stepNo).1 ∧
      (loopAux rules maxSteps fuel wm e1 used stepNo).2.2 =
        (loopAux rules maxSteps fuel wm e2 used stepNo).2.2 := by
  intro fuel
  induction fuel with
  | zero =>
      intro wm e1 e2 used stepNo
      exact ⟨rfl, rfl⟩
  | succ fuel ih =>
      intro wm e1 e2 used stepNo
      rw [loopAux, loopAux]
      by_cases hlt : stepNo < maxSteps
      · simp only [hlt, if_true]
        obtain ⟨hwm, hused, hstep, hfired⟩ := sweep_indep rules wm e1 e2 used stepNo
        rw [← hfired]
        by_cases hf : (sweep rules wm e1 used stepNo).fired = true
        · simp only [hf, if_true]
          rw [hwm, hused, hstep]
          exact ih (sweep rules wm e2 used stepNo).wm
            (sweep rules wm e1 used stepNo).expl
            (sweep rules wm e2 used stepNo).expl
            (sweep rules wm e2 used stepNo).used
            (sweep rules wm e2 used stepNo).stepNo
        · simp only [Bool.not_eq_true] at hf
          simp only [hf, Bool.false_eq_true, if_false]
          exact ⟨hwm, hused⟩
      · rw [if_neg hlt, if_neg hlt]
        exact ⟨rfl, rfl⟩

/-! ## Lemmas: best-disease selection, initial facts, stable sort -/

theorem foldl_best_aux {β : Type}
    (g : (Option String × ℚ) → (String × β) → (Option String × ℚ))
    (hg : ∀ best p, g best p = best ∨ (g best p).1 = some p.1) :
    ∀ (ds : List (String × β)) (acc : Option String × ℚ),
      ds.foldl g acc = acc ∨
      ∃ d, (ds.foldl g acc).1 = some d ∧ d ∈ ds.map Prod.fst := by
  intro ds
  induction ds with
  | nil => intro acc; exact Or.inl rfl
  | cons p ds ih =>
      intro acc
      rw [List.foldl_cons]
      rcases ih (g acc p) with h | ⟨d, h1, h2⟩
      · rcases hg acc p with h3 | h3
        · rw [h, h3]
          exact Or.inl rfl
        · refine Or.inr ⟨p.1, ?_, ?_⟩
          · rw [h, h3]
          · simp
      · exact Or.inr ⟨d, h1, by simp [h2]⟩

theorem selectBest_cases (ds : List (String × Disease))
    (cs : List (String × ℚ)) :
    selectBestDisease ds cs = (none, 0) ∨
    ∃ d, (selectBestDisease ds cs).1 = some d ∧ d ∈ ds.map Prod.fst := by
  unfold selectBestDisease
  exact foldl_best_aux _ (fun best p => by
    dsimp only
    split
    · exact Or.inr rfl
    · exact Or.inl rfl) ds (none, 0)

theorem selectBest_pos (ds : List (String × Disease)) (cs : List (String × ℚ))
    (t : ℚ) (ht : 0 < t) (h : t ≤ (selectBestDisease ds cs).2) :
    ∃ d, (selectBestDisease ds cs).1 = some d ∧ d ∈ ds.map Prod.fst := by
  rcases selectBest_cases ds cs with h1 | h1
  · rw [h1] at h
    exact absurd (lt_of_lt_of_le ht h) (by norm_num)
  · exact h1

theorem foldl_setFact_mem (g : String → ℚ) :
    ∀ (sids : List String) (acc : List (String × ℚ)),
      (∀ p ∈ acc, p.2 = g p.1) →
      ∀ p ∈ sids.foldl (fun acc sid => setFact acc sid (g sid)) acc,
        p.2 = g p.1 := by
  intro sids
  induction sids with
  | nil => intro acc hacc; exact hacc
  | cons sid sids ih =>
      intro acc hacc
      rw [List.foldl_cons]
      refine ih (setFact acc sid (g sid)) ?_
      intro p hp
      rcases mem_setFact hp with h1 | h1
      · rw [h1]
      · exact hacc p h1

theorem buildInitialFacts_cf (kb : KB) (sids : List String) (ucf : ℚ) :
    ∀ p ∈ buildInitialFacts kb sids ucf,
      p.2 = clamp01 (userCfClamped ucf * symWeight kb p.1) := by
  unfold buildInitialFacts
  exact foldl_setFact_mem
    (fun sid => clamp01 (userCfClamped ucf * symWeight kb sid)) sids []
    (by intro p hp; simp at hp)

theorem insDesc_perm {α : Type} (key : α → ℚ) (x : α) :
    ∀ acc : List α, List.Perm (insDesc key acc x) (x :: acc) := by
  intro acc
  induction acc with
  | nil => exact List.Perm.refl _
  | cons y ys ih =>
      rw [insDesc]
      split
      · exact (ih.cons y).trans (List.Perm.swap x y ys)
      · exact List.Perm.refl _

theorem sortDesc_perm {α : Type} (key : α → ℚ) (l : List α) :
    List.Perm (sortDesc key l) l := by
  have aux : ∀ (l acc : List α),
      List.Perm (l.foldl (insDesc key) acc) (acc ++ l) := by
    intro l
    induction l with
    | nil => intro acc; simp
    | cons x l ih =>
        intro acc
        rw [List.foldl_cons]
        refine (ih (insDesc key acc x)).trans ?_
        refine ((insDesc_perm key x acc).append_right l).trans ?_
        exact List.perm_middle.symm
  simpa [sortDesc] using aux l []

/-! ## Lemmas on backward chaining -/

theorem backward_chaining_succ (rules : List (String × Rule))
    (facts : List (String × ℚ)) (fuel : ℕ) (goal : String)
    (visited : List String) :
    backward_chaining rules facts (fuel + 1) goal visited =
      bcStep rules facts (backward_chaining rules facts fuel) goal visited :=
  rfl

theorem bcStep_cycle_guard (rules : List (String × Rule))
    (facts : List (String × ℚ)) (bcPrev : String → List String → BCResult)
    (goal : String) (visited : List String) (h1 : goal ∈ visited)
    (h2 : baseCf facts goal = none) :
    bcStep rules facts bcPrev goal visited = bcFail goal := by
  unfold bcStep
  rw [h2]
  rw [if_pos h1]

theorem proveAnts_isSome (bcPrev : String → List String → BCResult)
    (facts : List (String × ℚ)) :
    ∀ (ants : List String) (visited : List String),
      (proveAnts bcPrev facts ants visited).isSome =
        ants.all (fun a =>
          (baseCf facts a).isSome || (bcPrev a visited).success) := by
  intro ants
  induction ants with
  | nil => intro visited; rfl
  | cons a rest ih =>
      intro visited
      rw [List.all_cons]
      cases hb : baseCf facts a with
      | some c =>
          have h1 : (proveAnts bcPrev facts (a :: rest) visited).isSome =
              (proveAnts bcPrev facts rest visited).isSome := by
            rw [proveAnts, hb]
            cases hpr : proveAnts bcPrev facts rest visited with
            | some triple =>
                rcases triple with ⟨cfs, us, ts⟩
                rfl
            | none => rfl
          rw [h1, ih visited]
          simp
      | none =>
          rw [proveAnts, hb]
          dsimp only
          by_cases hs : (bcPrev a visited).success = true
          · rw [if_pos hs]
            have h1 : (match proveAnts bcPrev facts rest visited with
                | some (cfs, us, ts) =>
                    some ((bcPrev a visited).cf :: cfs,
                      (bcPrev a visited).used_rules ++ us,
                      (bcPrev a visited).trace ++ ts)
                | none => none).isSome =
                (proveAnts bcPrev facts rest visited).isSome := by
              cases hpr : proveAnts bcPrev facts rest visited with
              | some triple =>
                  rcases triple with ⟨cfs, us, ts⟩
                  rfl
              | none => rfl
            rw [h1, ih visited]
            simp [hs]
          · rw [if_neg hs]
            simp only [Bool.not_eq_true] at hs
            simp [hs]

/-! ## Lemmas on the per-disease suggestion aggregation -/

theorem updCand_keys (d : String) (m mi req : Finset String) :
    ∀ acc : List (String × Cand),
      (updCand acc d m mi req).map Prod.fst =
        if d ∈ acc.map Prod.fst then acc.map Prod.fst
        else acc.map Prod.fst ++ [d] := by
  intro acc
  induction acc with
  | nil => simp [updCand]
  | cons p rest ih =>
      rcases p with ⟨d0, c0⟩
      rw [updCand]
      by_cases h : d0 = d
      · subst h
        simp
      · rw [if_neg h]
        simp only [List.map_cons, List.mem_cons]
        rw [ih]
        by_cases h2 : d ∈ rest.map Prod.fst
        · rw [if_pos h2, if_pos (Or.inr h2)]
        · rw [if_neg h2, if_neg ?_]
          · simp
          · rintro (h3 | h3)
            · exact h (h3.symm)
            · exact h2 h3

theorem updCand_mem (d : String) (m mi req : Finset String) :
    ∀ (acc : List (String × Cand)), (acc.map Prod.fst).Nodup →
      ∀ q ∈ updCand acc d m mi req,
        (q.1 ≠ d ∧ q ∈ acc) ∨
        (q.1 = d ∧ d ∉ acc.map Prod.fst ∧ q = (d, ⟨m, mi, req⟩)) ∨
        (q.1 = d ∧ ∃ c : Cand, (d, c) ∈ acc ∧
          q = (d, ⟨c.matched ∪ m, c.missing ∪ mi, c.required ∪ req⟩)) := by
  intro acc
  induction acc with
  | nil =>
      intro _ q hq
      simp only [updCand, List.mem_singleton] at hq
      subst hq
      exact Or.inr (Or.inl ⟨rfl, by simp, rfl⟩)
  | cons p rest ih =>
      rcases p with ⟨d0, c0⟩
      intro hnd q hq
      have hnd2 : d0 ∉ rest.map Prod.fst ∧ (rest.map Prod.fst).Nodup := by
        rw [List.map_cons, List.nodup_cons] at hnd
        exact hnd
      rw [updCand] at hq
      by_cases h : d0 = d
      · subst h
        rw [if_pos rfl] at hq
        rcases List.mem_cons.1 hq with h1 | h1
        · exact Or.inr (Or.inr ⟨by rw [h1], c0, List.mem_cons_self _ _, h1⟩)
        · have hne : q.1 ≠ d0 := by
            intro he
            exact hnd2.1 (he ▸ List.mem_map_of_mem Prod.fst h1)
          exact Or.inl ⟨hne, List.mem_cons_of_mem _ h1⟩
      · rw [if_neg h] at hq
        rcases List.mem_cons.1 hq with h1 | h1
        · refine Or.inl ⟨?_, ?_⟩
          · rw [h1]
            exact h
          · rw [h1]
            exact List.mem_cons_self _ _
        · rcases ih hnd2.2 q h1 with h2 | h2 | h2
          · exact Or.inl ⟨h2.1, List.mem_cons_of_mem _ h2.2⟩
          · refine Or.inr (Or.inl ⟨h2.1, ?_, h2.2.2⟩)
            simp only [List.map_cons, List.mem_cons]
            rintro (h3 | h3)
            · exact h h3.symm
            · exact h2.2.1 h3
          · obtain ⟨he, c, hc1, hc2⟩ := h2
            exact Or.inr (Or.inr ⟨he, c, List.mem_cons_of_mem _ hc1, hc2⟩)

theorem agg_foldl_concat {α : Type} (g : α → (String × Rule) → α) (init : α)
    (l : List (String × Rule)) (p : String × Rule) :
    (l ++ [p]).foldl g init = g (l.foldl g init) p := by
  rw [List.foldl_append]
  rfl

theorem aggMatched_concat (selF : Finset String) (kb : KB)
    (l : List (String × Rule)) (p : String × Rule) (d : String) :
    aggMatched selF kb (l ++ [p]) d =
      if contributes selF kb p ∧ p.2.THEN = d then
        aggMatched selF kb l d ∪ (selF ∩ p.2.IF.toFinset)
      else aggMatched selF kb l d := by
  unfold aggMatched
  rw [agg_foldl_concat]

theorem aggMissing_concat (selF : Finset String) (kb : KB)
    (l : List (String × Rule)) (p : String × Rule) (d : String) :
    aggMissing selF kb (l ++ [p]) d =
      if contributes selF kb p ∧ p.2.THEN = d then
        aggMissing selF kb l d ∪ (p.2.IF.toFinset \ selF)
      else aggMissing selF kb l d := by
  unfold aggMissing
  rw [agg_foldl_concat]

theorem aggRequired_concat (selF : Finset String) (kb : KB)
    (l : List (String × Rule)) (p : String × Rule) (d : String) :
    aggRequired selF kb (l ++ [p]) d =
      if contributes selF kb p ∧ p.2.THEN = d then
        aggRequired selF kb l d ∪ p.2.IF.toFinset
      else aggRequired selF kb l d := by
  unfold aggRequired
  rw [agg_foldl_concat]

theorem agg_concat_of_not (selF : Finset String) (kb : KB)
    (processed : List (String × Rule)) (p : String × Rule) (d : String)
    (h : ¬(contributes selF kb p ∧ p.2.THEN = d)) :
    aggMatched selF kb (processed ++ [p]) d = aggMatched selF kb processed d ∧
    aggMissing selF kb (processed ++ [p]) d = aggMissing selF kb processed d ∧
    aggRequired selF kb (processed ++ [p]) d =
      aggRequired selF kb processed d := by
  refine ⟨?_, ?_, ?_⟩
  · rw [aggMatched_concat, if_neg h]
  · rw [aggMissing_concat, if_neg h]
  · rw [aggRequired_concat, if_neg h]

theorem agg_concat_of_hit (selF : Finset String) (kb : KB)
    (processed : List (String × Rule)) (p : String × Rule) (d : String)
    (h : contributes selF kb p ∧ p.2.THEN = d) :
    aggMatched selF kb (processed ++ [p]) d =
      aggMatched selF kb processed d ∪ (selF ∩ p.2.IF.toFinset) ∧
    aggMissing selF kb (processed ++ [p]) d =
      aggMissing selF kb processed d ∪ (p.2.IF.toFinset \ selF) ∧
    aggRequired selF kb (processed ++ [p]) d =
      aggRequired selF kb processed d ∪ p.2.IF.toFinset := by
  refine ⟨?_, ?_, ?_⟩
  · rw [aggMatched_concat, if_pos h]
  · rw [aggMissing_concat, if_pos h]
  · rw [aggRequired_concat, if_pos h]

theorem candStep_inv (selF : Finset String) (kb : KB)
    (processed : List (String × Rule)) (acc : List (String × Cand))
    (p : String × Rule)
    (hnd : (acc.map Prod.fst).Nodup)
    (hmem : ∀ q ∈ acc,
      q.2.matched = aggMatched selF kb processed q.1 ∧
      q.2.missing = aggMissing selF kb processed q.1 ∧
      q.2.required = aggRequired selF kb processed q.1 ∧
      q.2.required.Nonempty)
    (hout : ∀ d, d ∉ acc.map Prod.fst →
      aggMatched selF kb processed d = ∅ ∧
      aggMissing selF kb processed d = ∅ ∧
      aggRequired selF kb processed d = ∅) :
    (((candStep selF kb acc p).map Prod.fst).Nodup ∧
     (∀ q ∈ candStep selF kb acc p,
        q.2.matched = aggMatched selF kb (processed ++ [p]) q.1 ∧
        q.2.missing = aggMissing selF kb (processed ++ [p]) q.1 ∧
        q.2.required = aggRequired selF kb (processed ++ [p]) q.1 ∧
        q.2.required.Nonempty) ∧
     (∀ d, d ∉ (candStep selF kb acc p).map Prod.fst →
        aggMatched selF kb (processed ++ [p]) d = ∅ ∧
        aggMissing selF kb (processed ++ [p]) d = ∅ ∧
        aggRequired selF kb (processed ++ [p]) d = ∅)) := by
  by_cases hc : contributes selF kb p
  · unfold candStep
    rw [if_pos hc]
    refine ⟨?_, ?_, ?_⟩
    · rw [updCand_keys]
      split
      · exact hnd
      · rename_i hnotin
        simp [List.nodup_append, hnd, hnotin]
    · intro q hq
      rcases updCand_mem p.2.THEN (selF ∩ p.2.IF.toFinset)
        (p.2.IF.toFinset \ selF) p.2.IF.toFinset acc hnd q hq with
        ⟨hne, hin⟩ | ⟨heq, hnotin, hq2⟩ | ⟨heq, c, hcmem, hq2⟩
      · obtain ⟨e1, e2, e3⟩ := agg_concat_of_not selF kb processed p q.1
          (by rintro ⟨_, h2⟩; exact hne h2.symm)
        obtain ⟨f1, f2, f3, f4⟩ := hmem q hin
        exact ⟨by rw [e1, f1], by rw [e2, f2], by rw [e3, f3], f4⟩
      · obtain ⟨e1, e2, e3⟩ := agg_concat_of_hit selF kb processed p q.1
          ⟨hc, heq.symm⟩
        obtain ⟨g1, g2, g3⟩ := hout q.1 (heq ▸ hnotin)
        have hreq : p.2.IF.toFinset.Nonempty := by
          cases hif : p.2.IF with
          | nil => exact absurd hif hc.1
          | cons x xs => exact ⟨x, by simp [hif]⟩
        rw [hq2]
        refine ⟨?_, ?_, ?_, hreq⟩
        · rw [hq2] at e1 g1
          simp only at e1 g1 ⊢
          rw [e1, g1, Finset.empty_union]
        · rw [hq2] at e2 g2
          simp only at e2 g2 ⊢
          rw [e2, g2, Finset.empty_union]
        · rw [hq2] at e3 g3
          simp only at e3 g3 ⊢
          rw [e3, g3, Finset.empty_union]
      · obtain ⟨e1, e2, e3⟩ := agg_concat_of_hit selF kb processed p q.1
          ⟨hc, heq.symm⟩
        obtain ⟨f1, f2, f3, f4⟩ := hmem (p.2.THEN, c) hcmem
        simp only at f1 f2 f3
        rw [hq2]
        obtain ⟨x, hx⟩ := f4
        refine ⟨?_, ?_, ?_, ⟨x, Finset.mem_union_left _ hx⟩⟩
        · rw [hq2] at e1
          simp only at e1 ⊢
          rw [e1, f1]
        · rw [hq2] at e2
          simp only at e2 ⊢
          rw [e2, f2]
        · rw [hq2] at e3
          simp only at e3 ⊢
          rw [e3, f3]
    · intro d hd
      rw [updCand_keys] at hd
      have hsplit : d ∉ acc.map Prod.fst ∧ d ≠ p.2.THEN := by
        split at hd
        · rename_i hin
          refine ⟨hd, ?_⟩
          intro he
          exact hd (he ▸ hin)
        · rename_i hnotin
          simp only [List.mem_append, List.mem_singleton] at hd
          push_neg at hd
          exact hd
      obtain ⟨e1, e2, e3⟩ := agg_concat_of_not selF kb processed p d
        (by rintro ⟨_, h2⟩; exact hsplit.2 h2.symm)
      obtain ⟨g1, g2, g3⟩ := hout d hsplit.1
      exact ⟨by rw [e1, g1], by rw [e2, g2], by rw [e3, g3]⟩
  · unfold candStep
    rw [if_neg hc]
    refine ⟨hnd, ?_, ?_⟩
    · intro q hq
      obtain ⟨e1, e2, e3⟩ := agg_concat_of_not selF kb processed p q.1
        (by rintro ⟨h1, _⟩; exact hc h1)
      obtain ⟨f1, f2, f3, f4⟩ := hmem q hq
      exact ⟨by rw [e1, f1], by rw [e2, f2], by rw [e3, f3], f4⟩
    · intro d hd
      obtain ⟨e1, e2, e3⟩ := agg_concat_of_not selF kb processed p d
        (by rintro ⟨h1, _⟩; exact hc h1)
      obtain ⟨g1, g2, g3⟩ := hout d hd
      exact ⟨by rw [e1, g1], by rw [e2, g2], by rw [e3, g3]⟩

theorem buildCands_aux (selF : Finset String) (kb : KB) :
    ∀ (rules processed : List (String × Rule)) (acc : List (String × Cand)),
      (acc.map Prod.fst).Nodup →
      (∀ q ∈ acc,
        q.2.matched = aggMatched selF kb processed q.1 ∧
        q.2.missing = aggMissing selF kb processed q.1 ∧
        q.2.required = aggRequired selF kb processed q.1 ∧
        q.2.required.Nonempty) →
      (∀ d, d ∉ acc.map Prod.fst →
        aggMatched selF kb processed d = ∅ ∧
        aggMissing selF kb processed d = ∅ ∧
        aggRequired selF kb processed d = ∅) →
      (((rules.foldl (candStep selF kb) acc).map Prod.fst).Nodup ∧
       ∀ q ∈ rules.foldl (candStep selF kb) acc,
         q.2.matched = aggMatched selF kb (processed ++ rules) q.1 ∧
         q.2.missing = aggMissing selF kb (processed ++ rules) q.1 ∧
         q.2.required = aggRequired selF kb (processed ++ rules) q.1 ∧
         q.2.required.Nonempty) := by
  intro rules
  induction rules with
  | nil =>
      intro processed acc hnd hmem _
      rw [List.foldl_nil, List.append_nil]
      exact ⟨hnd, hmem⟩
  | cons p rest ih =>
      intro processed acc hnd hmem hout
      rw [List.foldl_cons]
      obtain ⟨hnd2, hmem2, hout2⟩ :=
        candStep_inv selF kb processed acc p hnd hmem hout
      have := ih (processed ++ [p]) (candStep selF kb acc p) hnd2 hmem2 hout2
      rw [List.append_assoc] at this
      simpa using this

theorem buildCands_spec (selF : Finset String) (kb : KB) :
    ((buildCands selF kb kb.rules).map Prod.fst).Nodup ∧
    ∀ q ∈ buildCands selF kb kb.rules,
      q.2.matched = aggMatched selF kb kb.rules q.1 ∧
      q.2.missing = aggMissing selF kb kb.rules q.1 ∧
      q.2.required = aggRequired selF kb kb.rules q.1 ∧
      q.2.required.Nonempty := by
  have := buildCands_aux selF kb kb.rules [] [] (by simp)
    (by intro q hq; simp at hq)
    (by intro d _; exact ⟨rfl, rfl, rfl⟩)
  simpa [buildCands] using this

/-! ## Claim theorems -/

/-- C2: the claim asserts every `WorkingMemory` member used by
`forward_chaining` is defined.  In fact none of the six members the
chaining code accesses is defined by the `WorkingMemory` class, so the
very first statement of `forward_chaining`
(`self.working_memory.add_initial_facts(...)`) raises `AttributeError` in
Python. -/
theorem C2_missing_members :
    ∀ m ∈ forwardChainingRequiredMembers, m ∉ workingMemoryDefinedMembers := by
  decide

/-- C4 (counterexample): `_combine_cf` is not clamped to `[0,1]` for
out-of-range inputs — at `(-0.5, -0.5)` it returns `-0.75` — and at
`(1, -1)` the division-branch denominator `1 - min(|a|,|b|)` is `0`
(a `ZeroDivisionError` in Python). -/
theorem C4_counterexample :
    combine_cf (-1/2) (-1/2) = -3/4 ∧ ¬(0 ≤ combine_cf (-1/2) (-1/2)) ∧
    1 - min |(1 : ℚ)| |(-1 : ℚ)| = 0 := by
  refine ⟨?_, ?_, by norm_num⟩
  · norm_num [combine_cf]
  · norm_num [combine_cf]

/-- C4 (amended): for inputs already in `[0,1]` the combination result
lies in `[0,1]` and, whenever the division branch is reached, its
denominator is non-zero; nothing is clamped for out-of-range inputs
(see the counterexample). -/
theorem C4_amended (a b : ℚ) (ha0 : 0 ≤ a) (ha1 : a ≤ 1) (hb0 : 0 ≤ b)
    (hb1 : b ≤ 1) :
    0 ≤ combine_cf a b ∧ combine_cf a b ≤ 1 ∧
    (¬(0 < a ∧ 0 < b) → 1 - min |a| |b| ≠ 0) := by
  unfold combine_cf
  by_cases h : 0 < a ∧ 0 < b
  · rw [if_pos h]
    refine ⟨by nlinarith, by nlinarith, fun hn => absurd h hn⟩
  · rw [if_neg h]
    have h2 : ¬(a < 0 ∧ b < 0) := by
      rintro ⟨h3, _⟩
      exact absurd ha0 (not_le.2 h3)
    rw [if_neg h2]
    have hz : a = 0 ∨ b = 0 := by
      by_contra hcon
      push_neg at hcon
      exact h ⟨lt_of_le_of_ne ha0 (Ne.symm hcon.1),
        lt_of_le_of_ne hb0 (Ne.symm hcon.2)⟩
    have hmin : min |a| |b| = 0 := by
      rcases hz with h3 | h3
      · rw [h3, abs_zero]
        exact min_eq_left (abs_nonneg b)
      · rw [h3, abs_zero]
        exact min_eq_right (abs_nonneg a)
    rw [hmin]
    refine ⟨?_, ?_, fun _ => by norm_num⟩
    · rcases hz with h3 | h3 <;> subst h3 <;> · rw [sub_zero, div_one]; linarith
    · rcases hz with h3 | h3 <;> subst h3 <;> · rw [sub_zero, div_one]; linarith

/-- C4 (witness): the amended theorem applied at `a = b = 1/2`. -/
theorem C4_witness :
    (0 ≤ (1/2 : ℚ)) ∧ ((1/2 : ℚ) ≤ 1) ∧
    (0 ≤ combine_cf (1/2) (1/2) ∧ combine_cf (1/2) (1/2) ≤ 1 ∧
     (¬(0 < (1/2 : ℚ) ∧ 0 < (1/2 : ℚ)) →
       1 - min |(1/2 : ℚ)| |(1/2 : ℚ)| ≠ 0)) :=
  ⟨by norm_num, by norm_num,
   C4_amended (1/2) (1/2) (by norm_num) (by norm_num) (by norm_num)
     (by norm_num)⟩

/-- C10: a user certainty factor of exactly `0.0` is falsy in Python, so
`user_cf or 1.0` silently substitutes `1.0`: the initial facts (and the
whole diagnosis result) coincide with those of a request with user CF
`1.0`, and every initial fact CF equals the symptom weight clamped to
`[0,1]`. -/
theorem C10_zero_user_cf (e : Engine) (kb : KB) (sids : List String) :
    buildInitialFacts kb sids 0 = buildInitialFacts kb sids 1 ∧
    (∀ p ∈ buildInitialFacts kb sids 0,
      p.2 = clamp01 (symWeight kb p.1)) ∧
    diagnose e sids 0 kb = diagnose e sids 1 kb := by
  have h0 : userCfClamped 0 = 1 := by
    norm_num [userCfClamped, clamp01, qmin, qmax]
  have h1 : userCfClamped 1 = 1 := by
    norm_num [userCfClamped, clamp01, qmin, qmax]
  have hbuild : buildInitialFacts kb sids 0 = buildInitialFacts kb sids 1 := by
    unfold buildInitialFacts
    rw [h0, h1]
  refine ⟨hbuild, ?_, ?_⟩
  · intro p hp
    rw [buildInitialFacts_cf kb sids 0 p hp, h0, one_mul]
  · unfold diagnose
    rw [hbuild]

/-- C3: for an eligible firing with in-range stored CFs and an in-range
rule CF, the proposed CF equals the minimum antecedent CF times the rule
CF clamped to `[0,1]`, lies in `[0,1]`, and the antecedent aggregation is
the minimum of the antecedent CFs (it is one of them and a lower bound
of all of them), not a sum or average. -/
theorem C3_proposed_cf (wm : WM) (rule : Rule)
    (hwm : ∀ p ∈ wm, 0 ≤ p.2 ∧ p.2 ≤ 1)
    (hcf0 : 0 ≤ rule.CF) (hcf1 : rule.CF ≤ 1) (hIF : rule.IF ≠ []) :
    proposedCf wm rule = clamp01 (antecedentCf wm rule * rule.CF) ∧
    0 ≤ proposedCf wm rule ∧ proposedCf wm rule ≤ 1 ∧
    antecedentCf wm rule ∈ rule.IF.map (fun a => (wm.get_fact a).getD 0) ∧
    ((rule.IF.map (fun a => (wm.get_fact a).getD 0)).all
      (fun c => decide (antecedentCf wm rule ≤ c))) = true := by
  have hvals : ∀ c ∈ rule.IF.map (fun a => (wm.get_fact a).getD 0),
      0 ≤ c ∧ c ≤ 1 := by
    intro c hc
    rcases List.mem_map.1 hc with ⟨a, _, rfl⟩
    cases hg : WM.get_fact wm a with
    | none => simp [hg]
    | some v =>
        have := hwm (a, v) (getFact_mem hg)
        simpa [hg] using this
  have hne : rule.IF.map (fun a => (wm.get_fact a).getD 0) ≠ [] := by
    simpa using hIF
  have ha : antecedentCf wm rule =
      listMin (rule.IF.map (fun a => (wm.get_fact a).getD 0)) := rfl
  have hmem : antecedentCf wm rule ∈
      rule.IF.map (fun a => (wm.get_fact a).getD 0) := by
    rw [ha]
    exact listMin_mem hne
  obtain ⟨h0, h1⟩ := hvals _ hmem
  have hprod0 : 0 ≤ antecedentCf wm rule * rule.CF := mul_nonneg h0 hcf0
  have hprod1 : antecedentCf wm rule * rule.CF ≤ 1 := by nlinarith
  have hq : proposedCf wm rule = antecedentCf wm rule * rule.CF := by
    unfold proposedCf
    rw [qmin_eq]
    exact min_eq_right hprod1
  refine ⟨?_, ?_, ?_, hmem, ?_⟩
  · rw [hq, clamp01_of_mem _ hprod0 hprod1]
  · rw [hq]
    exact hprod0
  · rw [hq]
    exact hprod1
  · simp only [List.all_eq_true, decide_eq_true_eq]
    intro c hc
    rw [ha]
    exact listMin_le hc

/-- C3 (witness): the theorem applied to the concrete memory `c3wm` and
rule `c3rule`; the proposed CF is `min(1, 0.5) × 0.8 = 0.4`. -/
theorem C3_witness :
    (∀ p ∈ c3wm, 0 ≤ p.2 ∧ p.2 ≤ 1) ∧ (0 ≤ c3rule.CF) ∧ (c3rule.CF ≤ 1) ∧
    (c3rule.IF ≠ []) ∧
    (proposedCf c3wm c3rule = clamp01 (antecedentCf c3wm c3rule * c3rule.CF) ∧
     0 ≤ proposedCf c3wm c3rule ∧ proposedCf c3wm c3rule ≤ 1 ∧
     antecedentCf c3wm c3rule ∈
       c3rule.IF.map (fun a => (WM.get_fact c3wm a).getD 0) ∧
     ((c3rule.IF.map (fun a => (WM.get_fact c3wm a).getD 0)).all
       (fun c => decide (antecedentCf c3wm c3rule ≤ c))) = true) := by
  have hwm : ∀ p ∈ c3wm, 0 ≤ p.2 ∧ p.2 ≤ 1 := by
    intro p hp
    simp only [c3wm, List.mem_cons, List.mem_singleton] at hp
    rcases hp with h | h | h
    · rw [h]; norm_num
    · rw [h]; norm_num
    · simp at h
  exact ⟨hwm, by norm_num [c3rule], by norm_num [c3rule],
    by simp [c3rule],
    C3_proposed_cf c3wm c3rule hwm (by norm_num [c3rule])
      (by norm_num [c3rule]) (by simp [c3rule])⟩

/-- C1 (counterexample): the inference loop tracks no fired-rule set, so
with the single rule `R1` (CF `0.8`) and fact `G1 = 1.0`, `R1` fires in
nine successive sweeps — its consequent CF keeps rising by more than
`1e-6` — and `used_rules` lists `"R1"` nine times, not at most once. -/
theorem C1_counterexample :
    c1run.used_rules.count "R1" = 9 ∧ ¬(c1run.used_rules.count "R1" ≤ 1) := by
  have h : c1run.used_rules.count "R1" = 9 := by
    norm_num +decide [c1run, c1rules, c1facts, forward_chaining,
      inference_loop, maxStepsOf, loopAux, sweep, sweepStep, fire_rule,
      can_fire_rule, proposedCf, antecedentCf, listMin, qmin, qmax, clamp01,
      WM.add_fact, WM.get_fact, WM.has_all_facts, WM.get_facts_set, getFact,
      setFact, add_initial_facts, List.count, List.countP]
  exact ⟨h, by rw [h]; norm_num⟩

/-- C1 (amended): each sweep reconsiders every rule (a rule may fire in
several sweeps while its consequent CF still rises by more than `1e-6`),
but the loop still terminates: a sweep that fires zero rules ends the
loop immediately, and the total number of firings is bounded by the step
cap plus one final sweep over the rule base. -/
theorem C1_amended (rules : List (String × Rule)) (wm wm2 : WM)
    (expl expl2 : Option Explanation) (used : List String)
    (stepNo maxSteps fuel : ℕ) (limit : Option ℕ)
    (h1 : stepNo < maxSteps)
    (h2 : (sweep rules wm expl used stepNo).fired = false) :
    loopAux rules maxSteps (fuel + 1) wm expl used stepNo =
      ((sweep rules wm expl used stepNo).wm,
       (sweep rules wm expl used stepNo).expl,
       (sweep rules wm expl used stepNo).used) ∧
    (inference_loop rules wm2 expl2 limit).2.2.length ≤
      maxStepsOf limit rules + rules.length := by
  refine ⟨?_, inference_loop_bound rules wm2 expl2 limit⟩
  rw [loopAux, if_pos h1, h2]
  simp

/-- C1 (witness): the amended theorem applied to the empty rule base,
whose first sweep fires nothing. -/
theorem C1_witness :
    0 < 1 ∧
    (sweep [] ([] : WM) none [] 0).fired = false ∧
    loopAux [] 1 (0 + 1) ([] : WM) none [] 0 =
      ((sweep [] ([] : WM) none [] 0).wm,
       (sweep [] ([] : WM) none [] 0).expl,
       (sweep [] ([] : WM) none [] 0).used) ∧
    (inference_loop [] ([] : WM) none none).2.2.length ≤
      maxStepsOf none [] + List.length ([] : List (String × Rule)) :=
  ⟨Nat.one_pos, rfl,
   (C1_amended [] [] [] none none [] 0 1 0 none Nat.one_pos rfl).1,
   (C1_amended [] [] [] none none [] 0 1 0 none Nat.one_pos rfl).2⟩

/-- C7 (counterexample): with caller-supplied limit `1` and two rules
both eligible in the first sweep, the run fires twice — the cap is
checked only between sweeps, so the number of firings exceeds the
limit. -/
theorem C7_counterexample :
    c7run.used_rules = ["R1", "R2"] ∧ ¬(c7run.used_rules.length ≤ 1) := by
  have h : c7run.used_rules = ["R1", "R2"] := by
    norm_num +decide [c7run, c7rules, c1facts, forward_chaining,
      inference_loop, maxStepsOf, loopAux, sweep, sweepStep, fire_rule,
      can_fire_rule, proposedCf, antecedentCf, listMin, qmin, qmax, clamp01,
      WM.add_fact, WM.get_fact, WM.has_all_facts, WM.get_facts_set, getFact,
      setFact, add_initial_facts]
  exact ⟨h, by rw [h]; norm_num⟩

/-- C7 (amended): the total number of firings is bounded by the step cap
plus the rule-base size (the cap is checked only between sweeps, so a
final sweep may overshoot by up to `|rules| − 1` firings), and the
default cap when no limit is supplied is `max(50, 3·|rules|)`, not
`100`. -/
theorem C7_amended (e : Engine) (rules : List (String × Rule))
    (init : List (String × ℚ)) (kb : Option KB) (limit : Option ℕ) :
    (forward_chaining e rules init kb limit).2.used_rules.length ≤
      maxStepsOf limit rules + rules.length ∧
    maxStepsOf none rules = Nat.max 50 (rules.length * 3) :=
  ⟨forward_chaining_used_bound e rules init kb limit, rfl⟩

/-- C8: (i) when the goal is already in the visited set of the current
proof branch — every member of which failed the base-case test when it
was visited, and `facts_cf` is never mutated — the call returns the
failure record immediately; (ii) the antecedent loop is branch-scoped:
the whole antecedent list proves successfully iff each antecedent
independently proves against the same visited set `goal :: visited`, so
a failed attempt for one sibling cannot poison another; (iii) visiting a
goal that failed the base case preserves the branch invariant. -/
theorem C8_cycle_guard (rules : List (String × Rule))
    (facts : List (String × ℚ)) (goal : String) (visited : List String)
    (ants : List String) (fuel : ℕ)
    (h1 : goal ∈ visited)
    (h2 : ∀ v ∈ visited, baseCf facts v = none) :
    backward_chaining rules facts (fuel + 1) goal visited = bcFail goal ∧
    (proveAnts (backward_chaining rules facts fuel) facts ants
        (goal :: visited)).isSome =
      ants.all (fun a => (baseCf facts a).isSome ||
        (backward_chaining rules facts fuel a (goal :: visited)).success) ∧
    (∀ v ∈ goal :: visited, baseCf facts v = none) := by
  refine ⟨?_, proveAnts_isSome _ facts ants (goal :: visited), ?_⟩
  · rw [backward_chaining_succ]
    exact bcStep_cycle_guard rules facts _ goal visited h1 (h2 goal h1)
  · intro v hv
    rcases List.mem_cons.1 hv with h | h
    · rw [h]
      exact h2 goal h1
    · exact h2 v h

/-- C8 (witness): the theorem applied with goal `G` already visited and
an empty fact base. -/
theorem C8_witness :
    ("G" ∈ ["G"]) ∧ (∀ v ∈ ["G"], baseCf [] v = none) ∧
    (backward_chaining [("R1", { IF := ["A"], THEN := "G", CF := 1 })] []
      (0 + 1) "G" ["G"] = bcFail "G" ∧
     (proveAnts (backward_chaining
        [("R1", { IF := ["A"], THEN := "G", CF := 1 })] [] 0) [] ["A"]
        ("G" :: ["G"])).isSome =
      (["A"].all (fun a => (baseCf [] a).isSome ||
        (backward_chaining [("R1", { IF := ["A"], THEN := "G", CF := 1 })]
          [] 0 a ("G" :: ["G"])).success)) ∧
     (∀ v ∈ "G" :: ["G"], baseCf [] v = none)) :=
  ⟨by decide, by intro v _; rfl,
   C8_cycle_guard [("R1", { IF := ["A"], THEN := "G", CF := 1 })] [] "G"
     ["G"] ["A"] 0 (by decide) (by intro v _; rfl)⟩

/-- C9 (amended): forward chaining does not depend on leftover engine
state as long as a knowledge base is supplied (a fresh explanation
facility is then created): the whole result dict is a function of the
rule base, the initial facts and the limit.  With `kb = None` the final
fact CFs, conclusions, fired-rule list and reasoning path are still
engine-state independent, but the returned trace comes from whatever
explanation facility the engine retained (see the counterexample). -/
theorem C9_amended (e1 e2 : Engine) (rules : List (String × Rule))
    (init : List (String × ℚ)) (k : KB) (limit : Option ℕ) :
    (forward_chaining e1 rules init (some k) limit).2 =
      (forward_chaining e2 rules init (some k) limit).2 ∧
    (forward_chaining e1 rules init none limit).2.facts_cf =
      (forward_chaining e2 rules init none limit).2.facts_cf ∧
    (forward_chaining e1 rules init none limit).2.conclusions =
      (forward_chaining e2 rules init none limit).2.conclusions ∧
    (forward_chaining e1 rules init none limit).2.used_rules =
      (forward_chaining e2 rules init none limit).2.used_rules ∧
    (forward_chaining e1 rules init none limit).2.reasoning_path =
      (forward_chaining e2 rules init none limit).2.reasoning_path := by
  constructor
  · rcases h : inference_loop rules (add_initial_facts init)
      (some { trace := [] }) limit with ⟨wm1, expl1, used⟩
    simp [forward_chaining, h]
  · have hloop := loopAux_indep rules (maxStepsOf limit rules)
      (maxStepsOf limit rules + 1) (add_initial_facts init)
      e1.explanation e2.explanation [] 0
    rcases hA : loopAux rules (maxStepsOf limit rules)
      (maxStepsOf limit rules + 1) (add_initial_facts init)
      e1.explanation [] 0 with ⟨wmA, exA, usedA⟩
    rcases hB : loopAux rules (maxStepsOf limit rules)
      (maxStepsOf limit rules + 1) (add_initial_facts init)
      e2.explanation [] 0 with ⟨wmB, exB, usedB⟩
    rw [hA, hB] at hloop
    dsimp only at hloop
    obtain ⟨hwm, hused⟩ := hloop
    subst hwm
    subst hused
    have hiA : inference_loop rules (add_initial_facts init)
        e1.explanation limit = (wmA, exA, usedA) := hA
    have hiB : inference_loop rules (add_initial_facts init)
        e2.explanation limit = (wmA, exB, usedA) := hB
    simp [forward_chaining, hiA, hiB]

/-- C9 (counterexample): with `kb = None`, a stale explanation facility
left on the engine by an earlier run keeps accumulating steps, so two
runs with identical rule base, identical initial facts and a fresh
working memory return different trace contents (2 rows, then 3 rows). -/
theorem C9_counterexample :
    c9runB.2.trace.length = 2 ∧ c9runC.2.trace.length = 3 ∧
    c9runB.2.trace ≠ c9runC.2.trace := by
  have h2 : c9runB.2.trace.length = 2 := by
    norm_num +decide [c9runB, c9engine, c9rules, c9kb, c1facts,
      forward_chaining, inference_loop, maxStepsOf, loopAux, sweep,
      sweepStep, fire_rule, can_fire_rule, proposedCf, antecedentCf,
      listMin, qmin, qmax, clamp01, WM.add_fact, WM.get_fact,
      WM.has_all_facts, WM.get_facts_set, getFact, setFact,
      add_initial_facts, Explanation.get_trace_formatted,
      Explanation.add_trace_step]
  have h3 : c9runC.2.trace.length = 3 := by
    norm_num +decide [c9runC, c9runB, c9engine, c9rules, c9kb, c1facts,
      forward_chaining, inference_loop, maxStepsOf, loopAux, sweep,
      sweepStep, fire_rule, can_fire_rule, proposedCf, antecedentCf,
      listMin, qmin, qmax, clamp01, WM.add_fact, WM.get_fact,
      WM.has_all_facts, WM.get_facts_set, getFact, setFact,
      add_initial_facts, Explanation.get_trace_formatted,
      Explanation.add_trace_step]
  refine ⟨h2, h3, fun heq => ?_⟩
  have hlen := congrArg List.length heq
  rw [h2, h3] at hlen
  norm_num at hlen

/-- C5: with a positive threshold and non-empty disease identifiers, the
diagnosis status is exactly one of the four values: `SUCCESS` iff the
best disease CF reaches the threshold; otherwise `NEEDS_MORE_INFO` iff
the per-rule suggestion engine found at least one partial-match
candidate; otherwise `INCONCLUSIVE` iff at least one rule fired;
otherwise `FAILED`. -/
theorem C5_status (e : Engine) (sids : List String) (ucf : ℚ) (kb : KB)
    (h1 : 0 < e.threshold) (h2 : ∀ p ∈ kb.diseases, p.1 ≠ "") :
    ((diagnose e sids ucf kb).status = DStatus.SUCCESS ↔
      e.threshold ≤ (diagnoseBest e sids ucf kb).2) ∧
    ((diagnose e sids ucf kb).status = DStatus.NEEDS_MORE_INFO ↔
      (diagnoseBest e sids ucf kb).2 < e.threshold ∧
      engine_get_suggestions sids kb ≠ []) ∧
    ((diagnose e sids ucf kb).status = DStatus.INCONCLUSIVE ↔
      (diagnoseBest e sids ucf kb).2 < e.threshold ∧
      engine_get_suggestions sids kb = [] ∧
      diagnoseUsedRules e sids ucf kb ≠ []) ∧
    ((diagnose e sids ucf kb).status = DStatus.FAILED ↔
      (diagnoseBest e sids ucf kb).2 < e.threshold ∧
      engine_get_suggestions sids kb = [] ∧
      diagnoseUsedRules e sids ucf kb = []) := by
  have hstat : (diagnose e sids ucf kb).status =
      if truthyId (diagnoseBest e sids ucf kb).1 = true ∧
         e.threshold ≤ (diagnoseBest e sids ucf kb).2 then DStatus.SUCCESS
      else if engine_get_suggestions sids kb ≠ [] then
        DStatus.NEEDS_MORE_INFO
      else if diagnoseUsedRules e sids ucf kb ≠ [] then DStatus.INCONCLUSIVE
      else DStatus.FAILED := by
    unfold diagnose diagnoseBest diagnoseUsedRules
    split
    · rename_i hcond
      rw [if_pos hcond]
    · rename_i hcond
      rw [if_neg hcond]
  have hguard : (truthyId (diagnoseBest e sids ucf kb).1 = true ∧
      e.threshold ≤ (diagnoseBest e sids ucf kb).2) ↔
      e.threshold ≤ (diagnoseBest e sids ucf kb).2 := by
    constructor
    · exact fun h => h.2
    · intro h
      refine ⟨?_, h⟩
      obtain ⟨d, hd1, hd2⟩ := selectBest_pos kb.diseases
        ((forward_chaining e kb.rules (buildInitialFacts kb sids ucf)
          (some kb) none).2.conclusions) e.threshold h1 h
      rcases List.mem_map.1 hd2 with ⟨p, hp, rfl⟩
      have hne := h2 p hp
      have hd1b : (diagnoseBest e sids ucf kb).1 = some p.1 := hd1
      rw [hd1b, truthyId, if_neg hne]
  rw [hstat]
  by_cases hg : e.threshold ≤ (diagnoseBest e sids ucf kb).2
  · rw [if_pos (hguard.2 hg)]
    have hnlt : ¬((diagnoseBest e sids ucf kb).2 < e.threshold) := not_lt.2 hg
    refine ⟨?_, ?_, ?_, ?_⟩ <;> simp [hg, hnlt]
  · rw [if_neg (fun hc => hg (hguard.1 hc))]
    have hlt : (diagnoseBest e sids ucf kb).2 < e.threshold := not_le.1 hg
    by_cases hs : engine_get_suggestions sids kb = []
    · rw [if_neg (fun hne => hne hs)]
      by_cases hu : diagnoseUsedRules e sids ucf kb = []
      · rw [if_neg (fun hne => hne hu)]
        refine ⟨?_, ?_, ?_, ?_⟩ <;> simp [hlt, hs, hu, hg]
      · rw [if_pos hu]
        refine ⟨?_, ?_, ?_, ?_⟩ <;> simp [hlt, hs, hu, hg]
    · rw [if_pos hs]
      refine ⟨?_, ?_, ?_, ?_⟩ <;> simp [hlt, hs, hg]

/-- C5 (witness): the theorem applied to a one-rule knowledge base on
which the default-threshold engine reaches `SUCCESS`. -/
theorem C5_witness :
    (0 < ({} : Engine).threshold) ∧ (∀ p ∈ c5kb.diseases, p.1 ≠ "") ∧
    (((diagnose {} ["G1"] 1 c5kb).status = DStatus.SUCCESS ↔
       ({} : Engine).threshold ≤ (diagnoseBest {} ["G1"] 1 c5kb).2) ∧
     ((diagnose {} ["G1"] 1 c5kb).status = DStatus.NEEDS_MORE_INFO ↔
       (diagnoseBest {} ["G1"] 1 c5kb).2 < ({} : Engine).threshold ∧
       engine_get_suggestions ["G1"] c5kb ≠ []) ∧
     ((diagnose {} ["G1"] 1 c5kb).status = DStatus.INCONCLUSIVE ↔
       (diagnoseBest {} ["G1"] 1 c5kb).2 < ({} : Engine).threshold ∧
       engine_get_suggestions ["G1"] c5kb = [] ∧
       diagnoseUsedRules {} ["G1"] 1 c5kb ≠ []) ∧
     ((diagnose {} ["G1"] 1 c5kb).status = DStatus.FAILED ↔
       (diagnoseBest {} ["G1"] 1 c5kb).2 < ({} : Engine).threshold ∧
       engine_get_suggestions ["G1"] c5kb = [] ∧
       diagnoseUsedRules {} ["G1"] 1 c5kb = [])) :=
  ⟨by show (0 : ℚ) < 6/10; norm_num, by decide,
   C5_status {} ["G1"] 1 c5kb (by show (0 : ℚ) < 6/10; norm_num)
     (by decide)⟩

set_option maxRecDepth 8000 in
/-- C6 (counterexample): the suggestion list `diagnose` actually uses is
the per-rule `get_suggestions` of the engine: with two rules for the same
disease `P1` it contains two candidates for `P1`, so the list used by
the diagnosis pipeline does not aggregate to at most one candidate per
disease. -/
theorem C6_counterexample :
    (diagnose {} ["G1"] 1 c6kb).suggestions.map (fun s => s.disease_id) =
      ["P1", "P1"] ∧
    ¬(((diagnose {} ["G1"] 1 c6kb).suggestions.map
        (fun s => s.disease_id)).Nodup) := by
  have h : (diagnose {} ["G1"] 1 c6kb).suggestions.map
      (fun s => s.disease_id) = ["P1", "P1"] := by
    norm_num +decide [diagnose, c6kb, buildInitialFacts, userCfClamped,
      symWeight, alget, clamp01, qmin, qmax, forward_chaining,
      inference_loop, maxStepsOf, loopAux, sweep, sweepStep, fire_rule,
      can_fire_rule, proposedCf, antecedentCf, listMin, WM.add_fact,
      WM.get_fact, WM.has_all_facts, WM.get_facts_set, getFact, setFact,
      add_initial_facts, selectBestDisease, truthyId,
      engine_get_suggestions, engineSuggestionOfRule, sortDesc, insDesc,
      disName, List.filterMap_cons, List.filterMap_nil, List.foldl_cons,
      List.foldl_nil]
  refine ⟨h, ?_⟩
  rw [h]
  decide

/-- C6 (amended): the per-disease aggregation the claim describes is
implemented by `ExplanationFacility.get_suggestions` (not the engine
method `diagnose` uses): its list has at most one candidate per disease,
the matched and missing sets of that candidate are the unions over all
contributing rules for the disease, the required count is the size of
the union of the required sets, and the percentage is
`matched / required × 100`. -/
theorem C6_amended (sids : List String) (kb : KB) :
    ((explanation_get_suggestions sids kb).map
      (fun s => s.disease_id)).Nodup ∧
    ∀ s ∈ explanation_get_suggestions sids kb,
      s.matched_count =
        (aggMatched sids.toFinset kb kb.rules s.disease_id).card ∧
      s.missing_symptom_ids = aggMissing sids.toFinset kb kb.rules s.disease_id ∧
      s.total_required =
        (aggRequired sids.toFinset kb kb.rules s.disease_id).card ∧
      0 < s.total_required ∧
      s.percentage = (s.matched_count : ℚ) / (s.total_required : ℚ) * 100 := by
  obtain ⟨hnd, hmem⟩ := buildCands_spec sids.toFinset kb
  have hdef : explanation_get_suggestions sids kb =
      sortDesc (fun s => s.percentage)
        ((buildCands sids.toFinset kb kb.rules).map (fun p =>
          ({ disease_id := p.1
             disease_name := disName kb p.1
             matched_count := p.2.matched.card
             total_required := p.2.required.card
             percentage :=
               if 0 < p.2.required.card then
                 (p.2.matched.card : ℚ) / (p.2.required.card : ℚ) * 100
               else 0
             missing_symptom_ids := p.2.missing } : ExpSuggestion))) := rfl
  constructor
  · rw [hdef]
    have hperm := (sortDesc_perm (fun s : ExpSuggestion => s.percentage)
      ((buildCands sids.toFinset kb kb.rules).map (fun p =>
        ({ disease_id := p.1
           disease_name := disName kb p.1
           matched_count := p.2.matched.card
           total_required := p.2.required.card
           percentage :=
             if 0 < p.2.required.card then
               (p.2.matched.card : ℚ) / (p.2.required.card : ℚ) * 100
             else 0
           missing_symptom_ids := p.2.missing } : ExpSuggestion)))).map
      (fun s => s.disease_id)
    refine hperm.nodup_iff.2 ?_
    rw [List.map_map]
    exact hnd
  · intro s hs
    rw [hdef] at hs
    have hs2 := (sortDesc_perm (fun s : ExpSuggestion => s.percentage)
      _).mem_iff.1 hs
    rcases List.mem_map.1 hs2 with ⟨p, hp, rfl⟩
    obtain ⟨f1, f2, f3, f4⟩ := hmem p hp
    have hcard : 0 < p.2.required.card := Finset.card_pos.2 f4
    refine ⟨?_, ?_, ?_, ?_, ?_⟩
    · dsimp only
      rw [f1]
    · dsimp only
      rw [f2]
    · dsimp only
      rw [f3]
    · exact hcard
    · dsimp only
      rw [if_pos hcard]

/-- C2 (witness): the very first member `forward_chaining` accesses,
`add_initial_facts`, is not defined by the `WorkingMemory` class. -/
theorem C2_witness : "add_initial_facts" ∉ workingMemoryDefinedMembers :=
  C2_missing_members "add_initial_facts" (by decide)
